import Mathlib

/-!
# Verification of the `HexGame` engine (`src/main.cpp`, class `HexGame`)

Shallow embedding of the Hex board simulation and incremental win-detection
engine.  The C++ arrays `board` and `connected` (flattened, two flags per
padded cell: index `pos*2 + player`) are modelled as total functions
`Nat → Bool`; the dense `open_positions` array is a function `Nat → Nat`
together with the live count `number_of_open_positions`; the move history
`moves` is a `List Nat` of logical indices (append at the tail, as
`push_back`).  The board dimension `BOARD_DIM` is passed explicitly to every
operation, matching the per-instance constant.

Fallible operations are embedded as `Option`-returning functions:
`place_piece_randomly` with zero open positions executes `rand() % 0`
(division by zero) and `remove_last_n_moves` past the end of the history
executes `moves.back()` / `pop_back()` on an empty vector; both are modelled
as `none`.  The external `rand()` call is modelled by an explicit `randVal`
argument; the C++ code then takes `randVal % number_of_open_positions`.

The recursive flood fill `connect` is embedded with an explicit fuel
argument; `winner` supplies fuel `(dim+2)*(dim+2)+1`, which is strictly more
than the number of padded cells and hence (as proved below) never runs out
on the recursion the C++ code performs.
-/

/-! ## Definitions: the embedded engine, example states, and the
reference predicates used in the specifications -/

/-- The mutable state of one `HexGame` instance (minus the fixed
`BOARD_DIM` and the fixed `neighbors` offset table, which are passed
explicitly to each operation). -/
structure HexState where
  board : Nat → Bool
  openPos : Nat → Nat
  nOpen : Nat
  moves : List Nat
  conn : Nat → Bool

/-- Padded grid width `BOARD_DIM + 2`. -/
def gridW (dim : Nat) : Nat := dim + 2

/-- The six hex-neighbor positions of `pos`, in the order of the C++
`neighbors` offset table `{-(W)+1, -W, -1, 1, W, W-1}` (Nat subtraction
agrees with the C++ int arithmetic for every playable `pos`, which
satisfies `pos ≥ W+1`). -/
def nbrList (dim pos : Nat) : List Nat :=
  [pos + 1 - gridW dim, pos - gridW dim, pos - 1, pos + 1,
   pos + gridW dim, pos + gridW dim - 1]

/-- `HexGame::init()`: zero the occupancy flags, repopulate
`open_positions` with the padded indices of the playable cells in row-major
order, seed the connectivity marks on the border (row 0 for player 0,
column 0 for player 1), reset the open count to `dim*dim` and clear the
move history.  Since `init` overwrites every in-range entry, its result
does not depend on the previous state. -/
def initState (dim : Nat) : HexState where
  board := fun _ => false
  openPos := fun k =>
    if k < dim * dim then (k / dim + 1) * gridW dim + (k % dim + 1) else 0
  nOpen := dim * dim
  moves := []
  conn := fun idx =>
    if idx < gridW dim * gridW dim * 2 then
      if idx % 2 = 0 then (idx / 2) / gridW dim = 0
      else (idx / 2) % gridW dim = 0
    else false

/-- `HexGame::place_piece_randomly(player)`.  `randVal` models the value
returned by `rand()`; the code computes `randVal % number_of_open_positions`,
which with zero open positions is a division by zero, modelled as `none`.
Returns the *padded* position it occupied together with the new state. -/
def placePieceRandomly (dim player randVal : Nat) (s : HexState) :
    Option (Nat × HexState) :=
  if s.nOpen = 0 then none
  else
    let r := randVal % s.nOpen
    let emptyPos := s.openPos r
    let logicalRow := emptyPos / gridW dim - 1
    let logicalCol := emptyPos % gridW dim - 1
    let logicalPos := logicalRow * dim + logicalCol
    some (emptyPos,
      { s with
        board := fun i => if i = emptyPos * 2 + player then true else s.board i
        moves := s.moves ++ [logicalPos]
        openPos := fun i => if i = r then s.openPos (s.nOpen - 1) else s.openPos i
        nOpen := s.nOpen - 1 })

/-- `HexGame::full_board()`. -/
def fullBoard (s : HexState) : Bool := s.nOpen == 0

/-- Padded index of a logical position: the inverse affine map used in
`remove_last_n_moves`. -/
def expandedIndex (dim logicalPos : Nat) : Nat :=
  (logicalPos / dim + 1) * gridW dim + (logicalPos % dim + 1)

/-- One iteration of the `remove_last_n_moves` loop body after reading
`last_move_position`: pop the history tail and clear both players'
occupancy flags at the undone cell's padded (expanded) index. -/
def clearLastMove (dim lastMove : Nat) (s : HexState) : HexState :=
  { s with
    moves := s.moves.dropLast
    board := fun i =>
      if i = expandedIndex dim lastMove * 2 then false
      else if i = expandedIndex dim lastMove * 2 + 1 then false
      else s.board i }

/-- `HexGame::remove_last_n_moves(n)`: pop the last `n` moves, clearing both
players' occupancy flags at each undone cell's padded index, and return the
removed logical positions in the order they were popped (most recent
first).  `moves.back()` on an empty vector is modelled as failure (`none`). -/
def removeLastNMoves (dim : Nat) : Nat → HexState → Option (List Nat × HexState)
  | 0, s => some ([], s)
  | n + 1, s =>
    match s.moves.getLast? with
    | none => none
    | some lastMove =>
      (removeLastNMoves dim n (clearLastMove dim lastMove s)).map
        (fun p => (lastMove :: p.1, p.2))

/-- Set the connectivity mark of `player` at padded position `pos`
(the assignment `connected[position*2 + player] = 1`). -/
def setConn (player pos : Nat) (s : HexState) : HexState :=
  { s with conn := fun i => if i = pos * 2 + player then true else s.conn i }

/-- The neighbor loop of `HexGame::connect`: for each neighbor in order, if
it is occupied by `player` and not yet marked, recurse (via `rec`); a
successful recursive call returns immediately. -/
def connectLoop (player : Nat) (rec : Nat → HexState → Bool × HexState) :
    List Nat → HexState → Bool × HexState
  | [], s => (false, s)
  | nb :: rest, s =>
    if s.board (nb * 2 + player) = true ∧ s.conn (nb * 2 + player) = false then
      match rec nb s with
      | (true, s') => (true, s')
      | (false, s') => connectLoop player rec rest s'
    else connectLoop player rec rest s

/-- `HexGame::connect(player, position)`, with explicit fuel: mark
`position`, return success if it lies on the player's goal edge (row
`BOARD_DIM` for player 0, column `BOARD_DIM` for player 1), otherwise
extend the fill through the six neighbors. -/
def connectF (dim player : Nat) : Nat → Nat → HexState → Bool × HexState
  | 0, _, s => (false, s)
  | fuel + 1, pos, s =>
    let s₁ := setConn player pos s
    if player = 0 ∧ pos / gridW dim = dim then (true, s₁)
    else if player = 1 ∧ pos % gridW dim = dim then (true, s₁)
    else connectLoop player (connectF dim player fuel) (nbrList dim pos) s₁

/-- `HexGame::winner(player, position)`: if some neighbor of `position`
already carries a true connectivity mark for `player`, run the flood fill
from `position`; otherwise return `false` without touching the state. -/
def winner (dim player pos : Nat) (s : HexState) : Bool × HexState :=
  if (nbrList dim pos).any (fun nb => s.conn (nb * 2 + player)) then
    connectF dim player (gridW dim * gridW dim + 1) pos s
  else (false, s)

/-- `HexGame::board_to_coord()`: project the `N×N` logical board into
row-major values `+1` (player X, index `*2`), `-1` (player O, index
`*2+1`), `0` (empty). -/
def boardToCoord (dim : Nat) (s : HexState) : List Int :=
  (List.range dim).flatMap (fun i =>
    (List.range dim).map (fun j =>
      let cellX := s.board (((i + 1) * gridW dim + j + 1) * 2)
      let cellO := s.board (((i + 1) * gridW dim + j + 1) * 2 + 1)
      if cellX then 1 else if cellO then -1 else 0))

/-- A cell of the player's goal edge: row `BOARD_DIM` for player 0, column
`BOARD_DIM` for player 1 (the tests of `HexGame::connect`). -/
def goalCell (dim player pos : Nat) : Prop :=
  (player = 0 ∧ pos / gridW dim = dim) ∨ (player = 1 ∧ pos % gridW dim = dim)

/-- Some goal-edge cell carries a true connectivity mark for `player`. -/
def wonMark (dim player : Nat) (s : HexState) : Prop :=
  ∃ pos, goalCell dim player pos ∧ s.conn (pos * 2 + player) = true

/-- Play one `place_piece_randomly` step, keeping the state unchanged if the
call fails; used to build concrete example states. -/
def exStep (dim player randVal : Nat) (s : HexState) : HexState :=
  match placePieceRandomly dim player randVal s with
  | some (_, s') => s'
  | none => s

/-- The state after two successful placements on an empty 2×2 board:
player 0 takes logical cell 0 (padded 5), then player 1 takes logical
cell 3 (padded 10); the move history is `[0, 3]` in played order. -/
def exTwoMoves : HexState := exStep 2 1 0 (exStep 2 0 0 (initState 2))

/-- The state after undoing both moves of `exTwoMoves`. -/
def exTwoUndone : HexState :=
  match removeLastNMoves 2 2 exTwoMoves with
  | some (_, s') => s'
  | none => exTwoMoves

/-- A concrete state on the 1×1 board with one stone at padded cell 4. -/
def exOneMove : HexState := exStep 1 0 0 (initState 1)

/-- The state after undoing the single move of `exOneMove` on the 1×1
board. -/
def exOneUndone : HexState :=
  match removeLastNMoves 1 1 exOneMove with
  | some (_, s') => s'
  | none => exOneMove

/-- States reachable through the engine's public operations, in any
interleaving: construction / `init`, successful `place_piece_randomly`
calls with a player index in {0, 1}, `winner` (`check_win`) calls, and
successful `remove_last_n_moves` calls. -/
inductive Reach (dim : Nat) : HexState → Prop
  | init : Reach dim (initState dim)
  | place (s : HexState) (player randVal e : Nat) (s' : HexState) :
      Reach dim s → player < 2 →
      placePieceRandomly dim player randVal s = some (e, s') → Reach dim s'
  | checkWin (s : HexState) (player pos : Nat) :
      Reach dim s → Reach dim (winner dim player pos s).2
  | undo (s : HexState) (n : Nat) (rm : List Nat) (s' : HexState) :
      Reach dim s → removeLastNMoves dim n s = some (rm, s') → Reach dim s'

/-- The bookkeeping invariant of reachable states, tying occupancy flags,
the move history and the open-position set together. -/
structure Bookkeeping (dim : Nat) (s : HexState) : Prop where
  occ_playable : ∀ i, s.board i = true →
    ∃ ℓ p, ℓ < dim * dim ∧ p < 2 ∧ i = expandedIndex dim ℓ * 2 + p
  one_player : ∀ ℓ, ℓ < dim * dim →
    ¬(s.board (expandedIndex dim ℓ * 2) = true ∧
      s.board (expandedIndex dim ℓ * 2 + 1) = true)
  occ_moves : ∀ ℓ, ℓ < dim * dim →
    ((s.board (expandedIndex dim ℓ * 2) = true ∨
      s.board (expandedIndex dim ℓ * 2 + 1) = true) ↔ ℓ ∈ s.moves)
  nodup : s.moves.Nodup
  moves_lt : ∀ ℓ ∈ s.moves, ℓ < dim * dim
  open_good : ∀ k, k < s.nOpen → ∃ ℓ, ℓ < dim * dim ∧
    s.openPos k = expandedIndex dim ℓ ∧
    s.board (expandedIndex dim ℓ * 2) = false ∧
    s.board (expandedIndex dim ℓ * 2 + 1) = false
  open_inj : ∀ k k', k < s.nOpen → k' < s.nOpen → k ≠ k' →
    s.openPos k ≠ s.openPos k'

/-- The projected value of logical cell `ℓ`. -/
def cellVal (dim : Nat) (s : HexState) (ℓ : Nat) : Int :=
  if s.board (expandedIndex dim ℓ * 2) then 1
  else if s.board (expandedIndex dim ℓ * 2 + 1) then -1 else 0

/-- Playable padded positions: row and column in 1..BOARD_DIM. -/
def playable (dim pos : Nat) : Prop :=
  1 ≤ pos / gridW dim ∧ pos / gridW dim ≤ dim ∧
  1 ≤ pos % gridW dim ∧ pos % gridW dim ≤ dim

/-- `y` is one of the six hex neighbors of `x`. -/
def adjacent (dim x y : Nat) : Prop := y ∈ nbrList dim x

/-- A cell next to the player's pre-marked border: row 1 for player 0,
column 1 for player 1. -/
def startCell (dim player pos : Nat) : Prop :=
  (player = 0 ∧ pos / gridW dim = 1) ∨ (player = 1 ∧ pos % gridW dim = 1)

/-- The border seeds written by `init`: row 0 for player 0, column 0 for
player 1, inside the padded grid. -/
def borderSeed (dim player pos : Nat) : Prop :=
  pos < gridW dim * gridW dim ∧
  ((player = 0 ∧ pos / gridW dim = 0) ∨ (player = 1 ∧ pos % gridW dim = 0))

/-- Reference connectivity: a chain of the player's stones, each adjacent
to the next, leads from a start-edge cell to `pos`.  This is the
"fresh full-board recomputation" of the spec, defined on occupancy alone,
independent of the incremental marks. -/
inductive StartConn (dim player : Nat) (b : Nat → Bool) : Nat → Prop
  | base (pos : Nat) : startCell dim player pos →
      b (pos * 2 + player) = true → StartConn dim player b pos
  | step (x y : Nat) : StartConn dim player b x → adjacent dim x y →
      b (y * 2 + player) = true → StartConn dim player b y

/-- Chains as in `StartConn` that never visit the cell `e`. -/
inductive StartConnAvoid (dim player : Nat) (b : Nat → Bool) (e : Nat) :
    Nat → Prop
  | base (pos : Nat) : pos ≠ e → startCell dim player pos →
      b (pos * 2 + player) = true → StartConnAvoid dim player b e pos
  | step (x y : Nat) : StartConnAvoid dim player b e x → y ≠ e →
      adjacent dim x y → b (y * 2 + player) = true →
      StartConnAvoid dim player b e y

/-- The reference winner predicate: some chain of the player's stones
connects the start edge to the goal edge. -/
def refWin (dim player : Nat) (b : Nat → Bool) : Prop :=
  ∃ pos, StartConn dim player b pos ∧ goalCell dim player pos

/-- The number of in-grid positions not yet carrying the player's mark:
a strictly decreasing measure for the flood-fill recursion. -/
def unmarkedCount (dim p : Nat) (st : HexState) : Nat :=
  (List.range (gridW dim * gridW dim)).countP
    (fun q => st.conn (q * 2 + p) = false)

/-- Invariant of a live (not yet won) game: for both players, the
connectivity marks on playable cells coincide with the reference start-edge
connectivity of the current occupancy, the marks outside the playable area
are exactly the border seeds written by `init`, occupancy is confined to
playable cells, and neither player has a start-to-goal chain yet. -/
structure MarksInv (dim : Nat) (s : HexState) : Prop where
  occ_play : ∀ pos p, p < 2 → s.board (pos * 2 + p) = true → playable dim pos
  marks : ∀ p, p < 2 → ∀ pos, playable dim pos →
    (s.conn (pos * 2 + p) = true ↔ StartConn dim p s.board pos)
  border : ∀ p, p < 2 → ∀ pos, ¬ playable dim pos →
    (s.conn (pos * 2 + p) = true ↔ borderSeed dim p pos)
  noWin : ∀ p, p < 2 → ¬ refWin dim p s.board

/-- Reachable states of a live driver game: `init`, then repeated
`place_piece_randomly` steps, each followed by a `winner` call on the
player and padded position just placed which has returned false (the
driver breaks out of the loop on a true result). -/
inductive GameReach (dim : Nat) : HexState → Prop
  | init : GameReach dim (initState dim)
  | step (s : HexState) (player randVal e : Nat) (s₁ s₂ : HexState) :
      GameReach dim s → player < 2 →
      placePieceRandomly dim player randVal s = some (e, s₁) →
      winner dim player e s₁ = (false, s₂) → GameReach dim s₂

/-! ## Theorems -/

theorem connectLoop_board_eq (player : Nat)
    (rec : Nat → HexState → Bool × HexState)
    (hrec : ∀ nb t, (rec nb t).2.board = t.board ∧ (rec nb t).2.moves = t.moves ∧
      (rec nb t).2.openPos = t.openPos ∧ (rec nb t).2.nOpen = t.nOpen) :
    ∀ (l : List Nat) (s : HexState),
      (connectLoop player rec l s).2.board = s.board ∧
      (connectLoop player rec l s).2.moves = s.moves ∧
      (connectLoop player rec l s).2.openPos = s.openPos ∧
      (connectLoop player rec l s).2.nOpen = s.nOpen := by
  intro l
  induction l with
  | nil => intro s; simp [connectLoop]
  | cons nb rest ih =>
    intro s
    rw [connectLoop]
    split
    · rcases hr : rec nb s with ⟨b, s'⟩
      have h1 := hrec nb s
      rw [hr] at h1
      dsimp only at h1
      cases b with
      | true => simpa using h1
      | false =>
        have h2 := ih s'
        simp only [h1.1, h1.2.1, h1.2.2.1, h1.2.2.2] at h2
        simpa using h2
    · exact ih s

theorem connectF_board_eq (dim player : Nat) :
    ∀ (fuel pos : Nat) (s : HexState),
      (connectF dim player fuel pos s).2.board = s.board ∧
      (connectF dim player fuel pos s).2.moves = s.moves ∧
      (connectF dim player fuel pos s).2.openPos = s.openPos ∧
      (connectF dim player fuel pos s).2.nOpen = s.nOpen := by
  intro fuel
  induction fuel with
  | zero => intro pos s; simp [connectF]
  | succ fuel ih =>
    intro pos s
    rw [connectF]
    split
    · simp [setConn]
    · split
      · simp [setConn]
      · have := connectLoop_board_eq player (connectF dim player fuel)
          (fun nb t => ih nb t) (nbrList dim pos) (setConn player pos s)
        simpa [setConn] using this

theorem connectLoop_conn_mono (player : Nat)
    (rec : Nat → HexState → Bool × HexState)
    (hrec : ∀ nb t i, t.conn i = true → (rec nb t).2.conn i = true) :
    ∀ (l : List Nat) (s : HexState) (i : Nat),
      s.conn i = true → (connectLoop player rec l s).2.conn i = true := by
  intro l
  induction l with
  | nil => intro s i h; simpa [connectLoop] using h
  | cons nb rest ih =>
    intro s i h
    rw [connectLoop]
    split
    · rcases hr : rec nb s with ⟨b, s'⟩
      have h1 := hrec nb s i h
      rw [hr] at h1
      cases b with
      | true => simpa using h1
      | false => exact ih s' i h1
    · exact ih s i h

theorem connectF_conn_mono (dim player : Nat) :
    ∀ (fuel pos : Nat) (s : HexState) (i : Nat),
      s.conn i = true → (connectF dim player fuel pos s).2.conn i = true := by
  intro fuel
  induction fuel with
  | zero => intro pos s i h; simpa [connectF] using h
  | succ fuel ih =>
    intro pos s i h
    have hset : (setConn player pos s).conn i = true := by
      simp only [setConn]
      split <;> simp_all
    rw [connectF]
    split
    · simpa using hset
    · split
      · simpa using hset
      · exact connectLoop_conn_mono player (connectF dim player fuel)
          (fun nb t j => ih nb t j) (nbrList dim pos) (setConn player pos s) i hset

theorem connectLoop_conn_new (player : Nat)
    (rec : Nat → HexState → Bool × HexState)
    (hrec : ∀ nb t i, (rec nb t).2.conn i = true →
      t.conn i = true ∨ ∃ q, i = q * 2 + player) :
    ∀ (l : List Nat) (s : HexState) (i : Nat),
      (connectLoop player rec l s).2.conn i = true →
      s.conn i = true ∨ ∃ q, i = q * 2 + player := by
  intro l
  induction l with
  | nil => intro s i h; left; simpa [connectLoop] using h
  | cons nb rest ih =>
    intro s i h
    rw [connectLoop] at h
    split at h
    · rcases hr : rec nb s with ⟨b, s'⟩
      rw [hr] at h
      have h1 := hrec nb s i
      rw [hr] at h1
      cases b with
      | true => exact h1 (by simpa using h)
      | false =>
        rcases ih s' i (by simpa using h) with h2 | h2
        · exact h1 h2
        · exact Or.inr h2
    · exact ih s i h

theorem connectF_conn_new (dim player : Nat) :
    ∀ (fuel pos : Nat) (s : HexState) (i : Nat),
      (connectF dim player fuel pos s).2.conn i = true →
      s.conn i = true ∨ ∃ q, i = q * 2 + player := by
  intro fuel
  induction fuel with
  | zero => intro pos s i h; left; simpa [connectF] using h
  | succ fuel ih =>
    intro pos s i h
    have hset : ∀ j, (setConn player pos s).conn j = true →
        s.conn j = true ∨ ∃ q, j = q * 2 + player := by
      intro j hj
      simp only [setConn] at hj
      by_cases hje : j = pos * 2 + player
      · exact Or.inr ⟨pos, hje⟩
      · left; simpa [hje] using hj
    rw [connectF] at h
    split at h
    · exact hset i (by simpa using h)
    · split at h
      · exact hset i (by simpa using h)
      · rcases connectLoop_conn_new player (connectF dim player fuel)
          (fun nb t j => ih nb t j) (nbrList dim pos) (setConn player pos s) i h with
          h2 | h2
        · exact hset i h2
        · exact Or.inr h2

theorem removeLastN_none_iff (dim : Nat) :
    ∀ (n : Nat) (s : HexState),
      removeLastNMoves dim n s = none ↔ s.moves.length < n := by
  intro n
  induction n with
  | zero => intro s; simp [removeLastNMoves]
  | succ n ih =>
    intro s
    rw [removeLastNMoves]
    cases hl : s.moves.getLast? with
    | none =>
      have h0 : s.moves = [] := List.getLast?_eq_none_iff.mp hl
      simp [h0]
    | some lastMove =>
      have hne : s.moves ≠ [] := by
        intro h0; rw [h0] at hl; simp at hl
      have hpos : 0 < s.moves.length := List.length_pos.mpr hne
      simp only [Option.map_eq_none', ih]
      have hlen : (clearLastMove dim lastMove s).moves.length =
          s.moves.length - 1 := List.length_dropLast _
      rw [hlen]
      omega

/-- C2: `place_piece_randomly` invoked with zero open cells fails (the
division `rand() % number_of_open_positions` by zero, modelled as `none`,
aborts the call before any state is touched rather than clamping); with at
least one open cell it succeeds with no error. -/
theorem place_random_fails_iff_board_exhausted (dim player randVal : Nat)
    (s : HexState) :
    placePieceRandomly dim player randVal s = none ↔ s.nOpen = 0 := by
  unfold placePieceRandomly
  split
  · simp_all
  · simp_all

/-- C3: `remove_last_n_moves n` fails (popping an empty history, modelled as
`none`) exactly when `n` exceeds the recorded history length; for every
`n ≤ |moves|`, including `n = |moves|` which empties the history, it
succeeds with no error. -/
theorem undo_fails_iff_insufficient_history (dim n : Nat) (s : HexState) :
    removeLastNMoves dim n s = none ↔ s.moves.length < n :=
  removeLastN_none_iff dim n s

/-- C4 counterexample: after the two moves of `exTwoMoves` (history `[0, 3]`
in played order), `remove_last_n_moves 2` returns `[3, 0]` — the most
recently played move first — not `[0, 3]` as the claim states. -/
theorem undo_order_counterexample :
    exTwoMoves.moves = [0, 3] ∧
    (removeLastNMoves 2 2 exTwoMoves).map Prod.fst = some [3, 0] ∧
    ([3, 0] : List Nat) ≠ [0, 3] :=
  ⟨rfl, rfl, by decide⟩

theorem drop_concat_reverse {α : Type _} (L : List α) (g : α) (n : Nat)
    (hn : n ≤ L.length) :
    ((L ++ [g]).drop ((L ++ [g]).length - (n + 1))).reverse =
      g :: (L.drop (L.length - n)).reverse := by
  have hlen : (L ++ [g]).length = L.length + 1 := by simp
  rw [hlen]
  have h3 : L.length + 1 - (n + 1) = L.length - n := by omega
  rw [h3, List.drop_append_eq_append_drop]
  have h4 : L.length - n - L.length = 0 := by omega
  rw [h4]
  simp

theorem removeLastN_fst (dim : Nat) :
    ∀ (n : Nat) (s : HexState), n ≤ s.moves.length →
      (removeLastNMoves dim n s).map Prod.fst =
        some ((s.moves.drop (s.moves.length - n)).reverse) := by
  intro n
  induction n with
  | zero => intro s _; simp [removeLastNMoves]
  | succ n ih =>
    intro s hn
    have hne : s.moves ≠ [] := by
      intro h0
      rw [h0] at hn
      simp at hn
    have hl : s.moves.getLast? = some (s.moves.getLast hne) :=
      List.getLast?_eq_getLast _ hne
    rw [removeLastNMoves, hl]
    dsimp only
    have hlen : s.moves.dropLast.length = s.moves.length - 1 :=
      List.length_dropLast _
    have hn' : n ≤ (clearLastMove dim (s.moves.getLast hne) s).moves.length := by
      show n ≤ s.moves.dropLast.length
      omega
    have ihs := ih (clearLastMove dim (s.moves.getLast hne) s) hn'
    rcases Option.map_eq_some'.mp ihs with ⟨⟨rm, t⟩, hp, hfst⟩
    rw [hp]
    simp only [Option.map_some']
    have hn'' : n ≤ s.moves.dropLast.length := hn'
    have hsplit : s.moves.dropLast ++ [s.moves.getLast hne] = s.moves :=
      List.dropLast_append_getLast hne
    generalize s.moves.getLast hne = g at hsplit ⊢
    rw [← hsplit, drop_concat_reverse _ _ _ hn'']
    have : rm = (s.moves.dropLast.drop (s.moves.dropLast.length - n)).reverse := by
      simpa [clearLastMove] using hfst
    simp [this]

/-- C4 amended: for every `n ≤ |moves|`, `remove_last_n_moves n` returns
exactly the `n` removed logical positions in *reverse* play order: the most
recently played move first and the oldest of the removed batch last. -/
theorem undo_returns_moves_newest_first (dim n : Nat) (s : HexState)
    (h : n ≤ s.moves.length) :
    (removeLastNMoves dim n s).map Prod.fst =
      some ((s.moves.drop (s.moves.length - n)).reverse) :=
  removeLastN_fst dim n s h

/-- Witness for C4 amended: on `exTwoMoves` (history `[0, 3]`), undoing both
moves returns `[3, 0]`, the reverse of the played order. -/
theorem undo_returns_moves_newest_first_witness :
    2 ≤ exTwoMoves.moves.length ∧
      (removeLastNMoves 2 2 exTwoMoves).map Prod.fst =
        some ((exTwoMoves.moves.drop (exTwoMoves.moves.length - 2)).reverse) :=
  ⟨by decide, undo_returns_moves_newest_first 2 2 exTwoMoves (by decide)⟩

theorem removeLastN_effects (dim : Nat) :
    ∀ (n : Nat) (s : HexState) (rm : List Nat) (s' : HexState),
      removeLastNMoves dim n s = some (rm, s') →
      s'.openPos = s.openPos ∧ s'.nOpen = s.nOpen ∧ s'.conn = s.conn ∧
      s'.moves = s.moves.take (s.moves.length - n) ∧
      (∀ m ∈ rm, s'.board (expandedIndex dim m * 2) = false ∧
        s'.board (expandedIndex dim m * 2 + 1) = false) ∧
      (∀ i, (∀ m ∈ rm, i ≠ expandedIndex dim m * 2 ∧
          i ≠ expandedIndex dim m * 2 + 1) → s'.board i = s.board i) := by
  intro n
  induction n with
  | zero =>
    intro s rm s' h
    rw [removeLastNMoves] at h
    injection h with h
    injection h with h1 h2
    subst h2
    subst h1
    simp
  | succ n ih =>
    intro s rm s' h
    rw [removeLastNMoves] at h
    cases hl : s.moves.getLast? with
    | none => rw [hl] at h; exact absurd h (by simp)
    | some g =>
      rw [hl] at h
      dsimp only at h
      rcases Option.map_eq_some'.mp h with ⟨pr, hp, heq⟩
      injection heq with h1 h2
      subst h1
      subst h2
      rcases ih (clearLastMove dim g s) pr.1 pr.2 (by rw [hp]) with
        ⟨hopen, hnop, hconn, hmoves, hclear, hframe⟩
      have hclg : ∀ j, (j = expandedIndex dim g * 2 ∨
          j = expandedIndex dim g * 2 + 1) → pr.2.board j = false := by
        intro j hj
        by_cases hin : ∀ m ∈ pr.1, j ≠ expandedIndex dim m * 2 ∧
            j ≠ expandedIndex dim m * 2 + 1
        · have hfr := hframe j hin
          rw [hfr]
          show (if j = expandedIndex dim g * 2 then false
            else if j = expandedIndex dim g * 2 + 1 then false
            else s.board j) = false
          rcases hj with hj | hj <;> simp [hj]
        · push_neg at hin
          rcases hin with ⟨m, hm, hcol⟩
          rcases hclear m hm with ⟨hc0, hc1⟩
          by_cases h0 : j = expandedIndex dim m * 2
          · rw [h0]; exact hc0
          · rw [hcol h0]; exact hc1
      have hpos : 0 < s.moves.length := List.length_pos.mpr (by
        intro h0
        rw [h0] at hl
        simp at hl)
      refine ⟨hopen, hnop, hconn, ?_, ?_, ?_⟩
      · rw [hmoves]
        show (s.moves.dropLast.take (s.moves.dropLast.length - n)) =
          s.moves.take (s.moves.length - (n + 1))
        rw [List.dropLast_eq_take, List.take_take, List.length_take]
        congr 1
        omega
      · intro m hm
        rcases List.mem_cons.mp hm with hm | hm
        · subst hm
          exact ⟨hclg _ (Or.inl rfl), hclg _ (Or.inr rfl)⟩
        · exact hclear m hm
      · intro i hi
        have hig := hi g (List.mem_cons_self g pr.1)
        have hfr : pr.2.board i = (clearLastMove dim g s).board i :=
          hframe i (fun m hm => hi m (List.mem_cons_of_mem g hm))
        rw [hfr]
        show (if i = expandedIndex dim g * 2 then false
          else if i = expandedIndex dim g * 2 + 1 then false
          else s.board i) = s.board i
        simp [hig.1, hig.2]

/-- C8: every successful `remove_last_n_moves n` call clears both players'
occupancy flags at each undone cell's padded (expanded) index and changes
nothing else: the open-position array and its live count are untouched
(undone cells are not reopened), both players' connectivity marks are
untouched, the remaining history is the played prefix, and board cells
other than the undone ones keep their value. -/
theorem undo_clears_occupancy_frame (dim n : Nat) (s : HexState)
    (rm : List Nat) (s' : HexState)
    (h : removeLastNMoves dim n s = some (rm, s')) :
    s'.openPos = s.openPos ∧ s'.nOpen = s.nOpen ∧ s'.conn = s.conn ∧
    s'.moves = s.moves.take (s.moves.length - n) ∧
    (∀ m ∈ rm, s'.board (expandedIndex dim m * 2) = false ∧
      s'.board (expandedIndex dim m * 2 + 1) = false) ∧
    (∀ i, (∀ m ∈ rm, i ≠ expandedIndex dim m * 2 ∧
        i ≠ expandedIndex dim m * 2 + 1) → s'.board i = s.board i) :=
  removeLastN_effects dim n s rm s' h

/-- Witness for C8 at a concrete input: undoing the two moves of
`exTwoMoves` succeeds, and the conclusions hold at that state. -/
theorem undo_clears_occupancy_frame_witness :
    removeLastNMoves 2 2 exTwoMoves = some ([3, 0], exTwoUndone) ∧
    exTwoUndone.nOpen = exTwoMoves.nOpen ∧
    exTwoUndone.board (expandedIndex 2 3 * 2) = false := by
  have h : removeLastNMoves 2 2 exTwoMoves = some ([3, 0], exTwoUndone) := rfl
  have hc := undo_clears_occupancy_frame 2 2 exTwoMoves [3, 0] exTwoUndone h
  exact ⟨h, hc.2.1, (hc.2.2.2.2.1 3 (by decide)).1⟩

theorem winner_frame (dim player pos : Nat) (s : HexState) :
    (winner dim player pos s).2.board = s.board ∧
    (winner dim player pos s).2.moves = s.moves ∧
    (winner dim player pos s).2.openPos = s.openPos ∧
    (winner dim player pos s).2.nOpen = s.nOpen ∧
    (∀ i, s.conn i = true → (winner dim player pos s).2.conn i = true) ∧
    (∀ i, (winner dim player pos s).2.conn i = true →
      s.conn i = true ∨ ∃ q, i = q * 2 + player) ∧
    ((∀ nb ∈ nbrList dim pos, s.conn (nb * 2 + player) = false) →
      winner dim player pos s = (false, s)) := by
  unfold winner
  split
  · exact ⟨(connectF_board_eq dim player _ pos s).1,
      (connectF_board_eq dim player _ pos s).2.1,
      (connectF_board_eq dim player _ pos s).2.2.1,
      (connectF_board_eq dim player _ pos s).2.2.2,
      fun i => connectF_conn_mono dim player _ pos s i,
      fun i => connectF_conn_new dim player _ pos s i,
      fun hno => by
        rename_i hany
        rw [List.any_eq_true] at hany
        rcases hany with ⟨nb, hmem, htrue⟩
        rw [hno nb hmem] at htrue
        exact absurd htrue (by decide)⟩
  · exact ⟨rfl, rfl, rfl, rfl, fun i h => h, fun i h => Or.inl h,
      fun _ => rfl⟩

/-- C10: `winner` (the `check_win` entry point) leaves the occupancy flags,
the move history, the open-position array and the open count unchanged; its
only effect is turning some of the given player's connectivity marks from
false to true, and when no neighbor of `position` carries a true mark for
that player it returns false and modifies no state at all. -/
theorem check_win_frame (dim player pos : Nat) (s : HexState) :
    (winner dim player pos s).2.board = s.board ∧
    (winner dim player pos s).2.moves = s.moves ∧
    (winner dim player pos s).2.openPos = s.openPos ∧
    (winner dim player pos s).2.nOpen = s.nOpen ∧
    (∀ i, s.conn i = true → (winner dim player pos s).2.conn i = true) ∧
    (∀ i, (winner dim player pos s).2.conn i = true →
      s.conn i = true ∨ ∃ q, i = q * 2 + player) ∧
    ((∀ nb ∈ nbrList dim pos, s.conn (nb * 2 + player) = false) →
      winner dim player pos s = (false, s)) :=
  winner_frame dim player pos s

/-- Witness for C10: on `exOneMove`, position 7 (bottom-left padded cell)
has no neighbor marked for player 0, and `winner` returns false leaving the
state untouched. -/
theorem check_win_frame_witness :
    (∀ nb ∈ nbrList 1 7, exOneMove.conn (nb * 2 + 0) = false) ∧
    winner 1 0 7 exOneMove = (false, exOneMove) :=
  ⟨by decide, (check_win_frame 1 0 7 exOneMove).2.2.2.2.2.2 (by decide)⟩

theorem connectLoop_true_wonMark (dim player : Nat)
    (rec : Nat → HexState → Bool × HexState)
    (hrec : ∀ nb t, (rec nb t).1 = true → wonMark dim player (rec nb t).2) :
    ∀ (l : List Nat) (s : HexState),
      (connectLoop player rec l s).1 = true →
      wonMark dim player (connectLoop player rec l s).2 := by
  intro l
  induction l with
  | nil => intro s h; simp [connectLoop] at h
  | cons nb rest ih =>
    intro s h
    rw [connectLoop] at h ⊢
    split at h
    · rcases hr : rec nb s with ⟨b, s'⟩
      rw [hr] at h
      have h1 := hrec nb s
      rw [hr] at h1
      cases b with
      | true =>
        rename_i hcond
        simp only [hcond, if_pos, hr]
        exact h1 rfl
      | false =>
        rename_i hcond
        simp only [hcond, if_pos, hr] at h ⊢
        exact ih s' (by simpa using h)
    · rename_i hcond
      rw [if_neg hcond]
      exact ih s h

theorem connectF_true_wonMark (dim player : Nat) :
    ∀ (fuel pos : Nat) (s : HexState),
      (connectF dim player fuel pos s).1 = true →
      wonMark dim player (connectF dim player fuel pos s).2 := by
  intro fuel
  induction fuel with
  | zero => intro pos s h; simp [connectF] at h
  | succ fuel ih =>
    intro pos s h
    rw [connectF] at h ⊢
    split at h
    · rename_i hgoal
      rw [if_pos hgoal]
      exact ⟨pos, Or.inl hgoal, by simp [setConn]⟩
    · rename_i hgoal
      rw [if_neg hgoal]
      split at h
      · rename_i hgoal1
        rw [if_pos hgoal1]
        exact ⟨pos, Or.inr hgoal1, by simp [setConn]⟩
      · rename_i hgoal1
        rw [if_neg hgoal1]
        exact connectLoop_true_wonMark dim player (connectF dim player fuel)
          (fun nb t => ih nb t) (nbrList dim pos) (setConn player pos s) h

/-- C7: within one game, connectivity marks are monotone: `place_random`
and `undo_last_n` do not touch them at all, `check_win` only turns marks
from false to true; moreover a true result of `check_win` leaves a goal-edge
cell marked, and such a "won" configuration persists through any further
`place_random`, `check_win` and `undo_last_n` calls. -/
theorem connectivity_marks_monotone (dim player randVal n pos : Nat)
    (s : HexState) :
    (∀ e s', placePieceRandomly dim player randVal s = some (e, s') →
      s'.conn = s.conn) ∧
    (∀ rm s', removeLastNMoves dim n s = some (rm, s') → s'.conn = s.conn) ∧
    (∀ i, s.conn i = true → (winner dim player pos s).2.conn i = true) ∧
    ((winner dim player pos s).1 = true →
      wonMark dim player (winner dim player pos s).2) ∧
    (∀ q e s', wonMark dim q s →
      placePieceRandomly dim player randVal s = some (e, s') →
      wonMark dim q s') ∧
    (∀ q rm s', wonMark dim q s →
      removeLastNMoves dim n s = some (rm, s') → wonMark dim q s') ∧
    (∀ q, wonMark dim q s → wonMark dim q (winner dim q pos s).2) := by
  have hplace : ∀ e s', placePieceRandomly dim player randVal s = some (e, s') →
      s'.conn = s.conn := by
    intro e s' h
    unfold placePieceRandomly at h
    split at h
    · exact absurd h (by simp)
    · injection h with h
      injection h with h1 h2
      rw [← h2]
  have hundo : ∀ rm s', removeLastNMoves dim n s = some (rm, s') →
      s'.conn = s.conn := by
    intro rm s' h
    exact (removeLastN_effects dim n s rm s' h).2.2.1
  have hwin : ∀ q i, s.conn i = true → (winner dim q pos s).2.conn i = true := by
    intro q i h
    unfold winner
    split
    · exact connectF_conn_mono dim q _ pos s i h
    · exact h
  refine ⟨hplace, hundo, fun i => hwin player i, ?_, ?_, ?_, ?_⟩
  · intro h
    unfold winner at h ⊢
    split at h
    · rename_i hany
      rw [if_pos hany]
      exact connectF_true_wonMark dim player _ pos s h
    · simp at h
  · intro q e s' hq h
    rcases hq with ⟨cell, hcg, hcm⟩
    exact ⟨cell, hcg, by rw [hplace e s' h]; exact hcm⟩
  · intro q rm s' hq h
    rcases hq with ⟨cell, hcg, hcm⟩
    exact ⟨cell, hcg, by rw [hundo rm s' h]; exact hcm⟩
  · intro q hq
    rcases hq with ⟨cell, hcg, hcm⟩
    exact ⟨cell, hcg, hwin q _ hcm⟩

/-- Witness for C7: on the 1×1 board, player 0's single placement at padded
cell 4 makes `winner` return true, and the resulting state carries a true
goal-edge mark. -/
theorem connectivity_marks_monotone_witness :
    (winner 1 0 4 exOneMove).1 = true ∧
    wonMark 1 0 (winner 1 0 4 exOneMove).2 :=
  ⟨rfl, (connectivity_marks_monotone 1 0 0 0 4 exOneMove).2.2.2.1 rfl⟩

/-- C6 counterexample: on the 1×1 board, after `init`, one successful
placement and one successful `undo_last_n(1)`, there are 0 open positions
and 0 recorded moves, yet N² = 1: the claimed invariant fails right after
an undo, because undone cells are not returned to the open set. -/
theorem open_plus_moves_counterexample :
    (removeLastNMoves 1 1 exOneMove).isSome = true ∧
    exOneUndone.nOpen + exOneUndone.moves.length = 0 ∧
    (1 : Nat) * 1 ≠ 0 :=
  ⟨rfl, rfl, by decide⟩

/-- C6 amended: `|OpenPositions| + |MoveHistory| = N²` holds after
construction/`init` and is preserved by every `place_random` and every
`check_win`, but each successful `undo_last_n(n)` decreases the sum by
exactly `n` (undone cells are not reopened). -/
theorem open_plus_moves_invariant (dim player randVal n pos : Nat)
    (s : HexState) :
    (initState dim).nOpen + (initState dim).moves.length = dim * dim ∧
    (∀ e s', placePieceRandomly dim player randVal s = some (e, s') →
      s'.nOpen + s'.moves.length = s.nOpen + s.moves.length) ∧
    ((winner dim player pos s).2.nOpen +
        (winner dim player pos s).2.moves.length =
      s.nOpen + s.moves.length) ∧
    (∀ rm s', removeLastNMoves dim n s = some (rm, s') →
      s'.nOpen + s'.moves.length + n = s.nOpen + s.moves.length) := by
  refine ⟨by simp [initState], ?_, ?_, ?_⟩
  · intro e s' h
    unfold placePieceRandomly at h
    split at h
    · exact absurd h (by simp)
    · rename_i hne
      injection h with h
      injection h with h1 h2
      rw [← h2]
      simp only [List.length_append, List.length_cons, List.length_nil]
      omega
  · have h1 := (winner_frame dim player pos s).2.1
    have h2 := (winner_frame dim player pos s).2.2.2.1
    rw [h1, h2]
  · intro rm s' h
    have heff := removeLastN_effects dim n s rm s' h
    have hn : ¬ s.moves.length < n := by
      intro hlt
      rw [(removeLastN_none_iff dim n s).mpr hlt] at h
      exact absurd h (by simp)
    rw [heff.2.1, heff.2.2.2.1, List.length_take]
    omega

/-- Witness for C6 amended: the placement on the fresh 1×1 board preserves
the sum, and the subsequent `undo_last_n(1)` decreases it by exactly 1. -/
theorem open_plus_moves_invariant_witness :
    placePieceRandomly 1 0 0 (initState 1) = some (4, exOneMove) ∧
    exOneMove.nOpen + exOneMove.moves.length =
      (initState 1).nOpen + (initState 1).moves.length ∧
    removeLastNMoves 1 1 exOneMove = some ([0], exOneUndone) ∧
    exOneUndone.nOpen + exOneUndone.moves.length + 1 =
      exOneMove.nOpen + exOneMove.moves.length :=
  ⟨rfl,
   (open_plus_moves_invariant 1 0 0 1 4 (initState 1)).2.1 4 exOneMove rfl,
   rfl,
   (open_plus_moves_invariant 1 0 0 1 4 exOneMove).2.2.2 [0] exOneUndone rfl⟩

/-- C5 counterexample: on the freshly initialized 1×1 board, the single
open cell is logical position 0 (the only 0-based row-major index of the
1×1 playable area), and 0 is appended to the move history — but the call
returns 4, the padded index, which is neither the appended logical index
nor a valid logical index at all. -/
theorem place_random_return_counterexample :
    (placePieceRandomly 1 0 0 (initState 1)).map Prod.fst = some 4 ∧
    exOneMove.moves = [0] ∧
    (4 : Nat) ≠ 0 ∧ ¬ (4 < 1 * 1) :=
  ⟨rfl, rfl, by decide, by decide⟩

theorem expandedIndex_div_mod (dim ℓ : Nat) (h : ℓ < dim * dim) :
    expandedIndex dim ℓ / gridW dim = ℓ / dim + 1 ∧
    expandedIndex dim ℓ % gridW dim = ℓ % dim + 1 := by
  have hdim : 0 < dim := by
    rcases Nat.eq_zero_or_pos dim with h0 | h0
    · subst h0; simp at h
    · exact h0
  have hmod : ℓ % dim < dim := Nat.mod_lt _ hdim
  have hlt : ℓ % dim + 1 < gridW dim := by
    unfold gridW; omega
  have hW : 0 < gridW dim := by unfold gridW; omega
  have hcomm : expandedIndex dim ℓ =
      gridW dim * (ℓ / dim + 1) + (ℓ % dim + 1) := by
    unfold expandedIndex; ring
  constructor
  · rw [hcomm, Nat.mul_add_div hW, Nat.div_eq_of_lt hlt]
  · rw [hcomm, Nat.mul_add_mod, Nat.mod_eq_of_lt hlt]

theorem expandedIndex_inj (dim ℓ ℓ' : Nat) (h : ℓ < dim * dim)
    (h' : ℓ' < dim * dim) (he : expandedIndex dim ℓ = expandedIndex dim ℓ') :
    ℓ = ℓ' := by
  have h1 := expandedIndex_div_mod dim ℓ h
  have h2 := expandedIndex_div_mod dim ℓ' h'
  have hd : ℓ / dim = ℓ' / dim := by
    have := h1.1.symm.trans (he ▸ h2.1)
    omega
  have hm : ℓ % dim = ℓ' % dim := by
    have := h1.2.symm.trans (he ▸ h2.2)
    omega
  have e1 := Nat.div_add_mod ℓ dim
  have e2 := Nat.div_add_mod ℓ' dim
  calc ℓ = dim * (ℓ / dim) + ℓ % dim := e1.symm
    _ = dim * (ℓ' / dim) + ℓ' % dim := by rw [hd, hm]
    _ = ℓ' := e2

/-- The padded index of logical cell `(i, j)` (both `< dim`) is
`(i+1)*W + (j+1)`, the expression used by `board_to_coord`. -/
theorem expandedIndex_rowcol (dim i j : Nat) (hj : j < dim) :
    expandedIndex dim (i * dim + j) = (i + 1) * gridW dim + (j + 1) := by
  have hdim : 0 < dim := by omega
  have hdiv : (i * dim + j) / dim = i := by
    rw [Nat.add_comm, Nat.add_mul_div_right _ _ hdim, Nat.div_eq_of_lt hj]
    omega
  have hmod : (i * dim + j) % dim = j := by
    rw [Nat.add_comm, Nat.add_mul_mod_self_right, Nat.mod_eq_of_lt hj]
  unfold expandedIndex
  rw [hdiv, hmod]

/-- The logical index computed by `place_piece_randomly` from the padded
index of a playable cell recovers the cell's logical position. -/
theorem logical_of_expandedIndex (dim ℓ : Nat) (h : ℓ < dim * dim) :
    (expandedIndex dim ℓ / gridW dim - 1) * dim +
      (expandedIndex dim ℓ % gridW dim - 1) = ℓ := by
  have h1 := expandedIndex_div_mod dim ℓ h
  rw [h1.1, h1.2]
  simp only [Nat.add_sub_cancel]
  rw [Nat.mul_comm]
  exact Nat.div_add_mod ℓ dim

theorem bookkeeping_init (dim : Nat) : Bookkeeping dim (initState dim) := by
  constructor
  · intro i h
    simp [initState] at h
  · intro ℓ _ h
    simp [initState] at h
  · intro ℓ _
    simp [initState]
  · simp [initState]
  · intro ℓ h
    simp [initState] at h
  · intro k hk
    have hk2 : k < dim * dim := hk
    refine ⟨k, hk2, ?_, rfl, rfl⟩
    show (if k < dim * dim then (k / dim + 1) * gridW dim + (k % dim + 1)
      else 0) = expandedIndex dim k
    rw [if_pos hk2]
    rfl
  · intro k k' hk hk' hne
    have hk2 : k < dim * dim := hk
    have hk2' : k' < dim * dim := hk'
    show (if k < dim * dim then (k / dim + 1) * gridW dim + (k % dim + 1)
        else 0) ≠
      (if k' < dim * dim then (k' / dim + 1) * gridW dim + (k' % dim + 1)
        else 0)
    rw [if_pos hk2, if_pos hk2']
    intro he
    exact hne (expandedIndex_inj dim k k' hk2 hk2' he)

theorem bookkeeping_winner (dim player pos : Nat) (s : HexState)
    (bk : Bookkeeping dim s) : Bookkeeping dim (winner dim player pos s).2 := by
  have hb := (winner_frame dim player pos s).1
  have hm := (winner_frame dim player pos s).2.1
  have ho := (winner_frame dim player pos s).2.2.1
  have hn := (winner_frame dim player pos s).2.2.2.1
  constructor
  · intro i h; exact bk.occ_playable i (by rwa [hb] at h)
  · intro ℓ hℓ h; exact bk.one_player ℓ hℓ (by rwa [hb] at h)
  · intro ℓ hℓ; rw [hb, hm]; exact bk.occ_moves ℓ hℓ
  · rw [hm]; exact bk.nodup
  · rw [hm]; exact bk.moves_lt
  · rw [hn, ho, hb]; exact bk.open_good
  · rw [hn, ho]; exact bk.open_inj

theorem removeLastN_board_le (dim : Nat) :
    ∀ (n : Nat) (s : HexState) (rm : List Nat) (s' : HexState),
      removeLastNMoves dim n s = some (rm, s') →
      ∀ i, s'.board i = true → s.board i = true := by
  intro n
  induction n with
  | zero =>
    intro s rm s' h i
    rw [removeLastNMoves] at h
    injection h with h
    injection h with h1 h2
    subst h2
    exact fun h => h
  | succ n ih =>
    intro s rm s' h i hi
    rw [removeLastNMoves] at h
    cases hl : s.moves.getLast? with
    | none => rw [hl] at h; exact absurd h (by simp)
    | some g =>
      rw [hl] at h
      dsimp only at h
      rcases Option.map_eq_some'.mp h with ⟨pr, hp, heq⟩
      injection heq with h1 h2
      subst h2
      have := ih (clearLastMove dim g s) pr.1 pr.2 (by rw [hp]) i hi
      revert this
      show (if i = expandedIndex dim g * 2 then false
        else if i = expandedIndex dim g * 2 + 1 then false
        else s.board i) = true → s.board i = true
      split
      · simp
      · split
        · simp
        · exact fun h => h

theorem bookkeeping_undo (dim n : Nat) (s : HexState) (rm : List Nat)
    (s' : HexState) (h : removeLastNMoves dim n s = some (rm, s'))
    (bk : Bookkeeping dim s) : Bookkeeping dim s' := by
  have heff := removeLastN_effects dim n s rm s' h
  obtain ⟨hopen, hnop, _, hmoves, hclear, hframe⟩ := heff
  have hmono := removeLastN_board_le dim n s rm s' h
  have hn : n ≤ s.moves.length := by
    by_contra hlt
    rw [(removeLastN_none_iff dim n s).mpr (by omega)] at h
    exact absurd h (by simp)
  have hrm : rm = (s.moves.drop (s.moves.length - n)).reverse := by
    have := removeLastN_fst dim n s hn
    rw [h] at this
    simpa using this
  have hsplit := List.take_append_drop (s.moves.length - n) s.moves
  have hdisj : (s.moves.take (s.moves.length - n)).Disjoint
      (s.moves.drop (s.moves.length - n)) := by
    have := bk.nodup
    rw [← hsplit] at this
    exact (List.nodup_append.mp this).2.2
  have hmem_rm : ∀ m, m ∈ rm ↔ m ∈ s.moves.drop (s.moves.length - n) := by
    intro m; rw [hrm, List.mem_reverse]
  have hmem_split : ∀ m, m ∈ s.moves ↔
      m ∈ s.moves.take (s.moves.length - n) ∨
      m ∈ s.moves.drop (s.moves.length - n) := by
    intro m
    conv_lhs => rw [← hsplit]
    exact List.mem_append
  have htake_sub : ∀ m ∈ s.moves.take (s.moves.length - n), m ∈ s.moves := by
    intro m hm; exact (hmem_split m).mpr (Or.inl hm)
  have hdrop_sub : ∀ m ∈ s.moves.drop (s.moves.length - n), m ∈ s.moves := by
    intro m hm; exact (hmem_split m).mpr (Or.inr hm)
  constructor
  · intro i hi
    exact bk.occ_playable i (hmono i hi)
  · intro ℓ hℓ ⟨h0, h1⟩
    exact bk.one_player ℓ hℓ ⟨hmono _ h0, hmono _ h1⟩
  · intro ℓ hℓ
    rw [hmoves]
    constructor
    · intro hocc
      have hsocc : s.board (expandedIndex dim ℓ * 2) = true ∨
          s.board (expandedIndex dim ℓ * 2 + 1) = true := by
        rcases hocc with h0 | h0
        · exact Or.inl (hmono _ h0)
        · exact Or.inr (hmono _ h0)
      have hmem := (bk.occ_moves ℓ hℓ).mp hsocc
      rcases (hmem_split ℓ).mp hmem with htk | hdr
      · exact htk
      · exfalso
        have hinrm : ℓ ∈ rm := (hmem_rm ℓ).mpr hdr
        rcases hclear ℓ hinrm with ⟨hc0, hc1⟩
        rcases hocc with h0 | h0
        · rw [hc0] at h0; exact absurd h0 (by decide)
        · rw [hc1] at h0; exact absurd h0 (by decide)
    · intro htk
      have hmem : ℓ ∈ s.moves := htake_sub ℓ htk
      have hsocc := (bk.occ_moves ℓ hℓ).mpr hmem
      have hne : ∀ m ∈ rm, expandedIndex dim ℓ * 2 ≠ expandedIndex dim m * 2 ∧
          expandedIndex dim ℓ * 2 ≠ expandedIndex dim m * 2 + 1 := by
        intro m hm
        have hdr := (hmem_rm m).mp hm
        have hmlt : m < dim * dim := bk.moves_lt m (hdrop_sub m hdr)
        have hℓm : ℓ ≠ m := by
          intro he; subst he; exact hdisj htk hdr
        have hEne : expandedIndex dim ℓ ≠ expandedIndex dim m := by
          intro he; exact hℓm (expandedIndex_inj dim ℓ m hℓ hmlt he)
        omega
      have hne1 : ∀ m ∈ rm,
          expandedIndex dim ℓ * 2 + 1 ≠ expandedIndex dim m * 2 ∧
          expandedIndex dim ℓ * 2 + 1 ≠ expandedIndex dim m * 2 + 1 := by
        intro m hm
        have hdr := (hmem_rm m).mp hm
        have hmlt : m < dim * dim := bk.moves_lt m (hdrop_sub m hdr)
        have hℓm : ℓ ≠ m := by
          intro he; subst he; exact hdisj htk hdr
        have hEne : expandedIndex dim ℓ ≠ expandedIndex dim m := by
          intro he; exact hℓm (expandedIndex_inj dim ℓ m hℓ hmlt he)
        omega
      rw [hframe _ hne, hframe _ hne1]
      exact hsocc
  · rw [hmoves]
    exact bk.nodup.sublist (List.take_sublist _ _)
  · rw [hmoves]
    intro ℓ hℓ
    exact bk.moves_lt ℓ (htake_sub ℓ hℓ)
  · rw [hnop, hopen]
    intro k hk
    rcases bk.open_good k hk with ⟨ℓ, hℓ, hop, hf0, hf1⟩
    refine ⟨ℓ, hℓ, hop, ?_, ?_⟩
    · cases hb : s'.board (expandedIndex dim ℓ * 2) with
      | false => rfl
      | true => rw [hmono _ hb] at hf0; exact absurd hf0 (by decide)
    · cases hb : s'.board (expandedIndex dim ℓ * 2 + 1) with
      | false => rfl
      | true => rw [hmono _ hb] at hf1; exact absurd hf1 (by decide)
  · rw [hnop, hopen]
    exact bk.open_inj

theorem bookkeeping_place (dim player randVal e : Nat) (s s' : HexState)
    (hpl : player < 2)
    (h : placePieceRandomly dim player randVal s = some (e, s'))
    (bk : Bookkeeping dim s) : Bookkeeping dim s' := by
  by_cases hz : s.nOpen = 0
  · unfold placePieceRandomly at h
    rw [if_pos hz] at h
    exact absurd h (by simp)
  unfold placePieceRandomly at h
  rw [if_neg hz] at h
  dsimp only at h
  injection h with h
  injection h with h1 h2
  subst h2
  subst h1
  have hr : randVal % s.nOpen < s.nOpen :=
    Nat.mod_lt _ (Nat.pos_of_ne_zero hz)
  rcases bk.open_good _ hr with ⟨ℓe, hℓe, he, hf0, hf1⟩
  have hlp : (s.openPos (randVal % s.nOpen) / gridW dim - 1) * dim +
      (s.openPos (randVal % s.nOpen) % gridW dim - 1) = ℓe := by
    rw [he]
    exact logical_of_expandedIndex dim ℓe hℓe
  have hp01 : player = 0 ∨ player = 1 := by omega
  have hnotmem : ℓe ∉ s.moves := by
    intro hm
    rcases (bk.occ_moves ℓe hℓe).mpr hm with h0 | h0
    · rw [hf0] at h0; exact absurd h0 (by decide)
    · rw [hf1] at h0; exact absurd h0 (by decide)
  have hkey : ∀ ℓ, ℓ < dim * dim → ℓ ≠ ℓe →
      expandedIndex dim ℓ * 2 ≠
        s.openPos (randVal % s.nOpen) * 2 + player ∧
      expandedIndex dim ℓ * 2 + 1 ≠
        s.openPos (randVal % s.nOpen) * 2 + player := by
    intro ℓ hℓ hne
    rw [he]
    have hEne : expandedIndex dim ℓ ≠ expandedIndex dim ℓe := fun he2 =>
      hne (expandedIndex_inj dim ℓ ℓe hℓ hℓe he2)
    omega
  constructor
  · intro i hi
    change (if i = s.openPos (randVal % s.nOpen) * 2 + player then true
      else s.board i) = true at hi
    by_cases hie : i = s.openPos (randVal % s.nOpen) * 2 + player
    · exact ⟨ℓe, player, hℓe, hpl, by rw [hie, he]⟩
    · rw [if_neg hie] at hi
      exact bk.occ_playable i hi
  · intro ℓ hℓ hcon
    obtain ⟨hc0, hc1⟩ := hcon
    change (if expandedIndex dim ℓ * 2 =
        s.openPos (randVal % s.nOpen) * 2 + player then true
      else s.board (expandedIndex dim ℓ * 2)) = true at hc0
    change (if expandedIndex dim ℓ * 2 + 1 =
        s.openPos (randVal % s.nOpen) * 2 + player then true
      else s.board (expandedIndex dim ℓ * 2 + 1)) = true at hc1
    by_cases hle : ℓ = ℓe
    · subst hle
      rcases hp01 with hp | hp
      · subst hp
        rw [if_neg (by rw [he]; omega)] at hc1
        rw [hf1] at hc1
        exact absurd hc1 (by decide)
      · subst hp
        rw [if_neg (by rw [he]; omega)] at hc0
        rw [hf0] at hc0
        exact absurd hc0 (by decide)
    · rcases hkey ℓ hℓ hle with ⟨hk0, hk1⟩
      rw [if_neg hk0] at hc0
      rw [if_neg hk1] at hc1
      exact bk.one_player ℓ hℓ ⟨hc0, hc1⟩
  · intro ℓ hℓ
    change ((if expandedIndex dim ℓ * 2 =
          s.openPos (randVal % s.nOpen) * 2 + player then true
        else s.board (expandedIndex dim ℓ * 2)) = true ∨
      (if expandedIndex dim ℓ * 2 + 1 =
          s.openPos (randVal % s.nOpen) * 2 + player then true
        else s.board (expandedIndex dim ℓ * 2 + 1)) = true) ↔
      ℓ ∈ s.moves ++ [(s.openPos (randVal % s.nOpen) / gridW dim - 1) * dim +
        (s.openPos (randVal % s.nOpen) % gridW dim - 1)]
    rw [hlp, List.mem_append, List.mem_singleton]
    by_cases hle : ℓ = ℓe
    · subst hle
      constructor
      · intro _; exact Or.inr rfl
      · intro _
        rcases hp01 with hp | hp
        · subst hp
          left
          rw [if_pos (by rw [he]; omega)]
        · subst hp
          right
          rw [if_pos (by rw [he])]
    · rcases hkey ℓ hℓ hle with ⟨hk0, hk1⟩
      rw [if_neg hk0, if_neg hk1]
      rw [bk.occ_moves ℓ hℓ]
      constructor
      · exact Or.inl
      · intro hmem
        rcases hmem with hmem | hmem
        · exact hmem
        · exact absurd hmem hle
  · show (s.moves ++ [(s.openPos (randVal % s.nOpen) / gridW dim - 1) * dim +
      (s.openPos (randVal % s.nOpen) % gridW dim - 1)]).Nodup
    rw [hlp, List.nodup_append]
    refine ⟨bk.nodup, List.nodup_singleton _, ?_⟩
    intro x hx hx'
    rw [List.mem_singleton] at hx'
    subst hx'
    exact hnotmem hx
  · intro ℓ hℓ
    change ℓ ∈ s.moves ++ [(s.openPos (randVal % s.nOpen) / gridW dim - 1) * dim +
      (s.openPos (randVal % s.nOpen) % gridW dim - 1)] at hℓ
    rw [hlp, List.mem_append, List.mem_singleton] at hℓ
    rcases hℓ with hℓ | hℓ
    · exact bk.moves_lt ℓ hℓ
    · subst hℓ; exact hℓe
  · intro k hk
    change k < s.nOpen - 1 at hk
    have hk' : k < s.nOpen := by omega
    by_cases hkr : k = randVal % s.nOpen
    · have hlast : s.nOpen - 1 < s.nOpen := by omega
      rcases bk.open_good (s.nOpen - 1) hlast with ⟨ℓl, hℓl, hel, hfl0, hfl1⟩
      have hrne : randVal % s.nOpen ≠ s.nOpen - 1 := by omega
      have hvne : s.openPos (randVal % s.nOpen) ≠ s.openPos (s.nOpen - 1) :=
        bk.open_inj _ _ hr hlast hrne
      refine ⟨ℓl, hℓl, ?_, ?_, ?_⟩
      · change (if k = randVal % s.nOpen then s.openPos (s.nOpen - 1)
          else s.openPos k) = expandedIndex dim ℓl
        rw [if_pos hkr]
        exact hel
      · show (if expandedIndex dim ℓl * 2 =
            s.openPos (randVal % s.nOpen) * 2 + player then true
          else s.board (expandedIndex dim ℓl * 2)) = false
        rw [if_neg (by rw [← hel]; omega), hfl0]
      · show (if expandedIndex dim ℓl * 2 + 1 =
            s.openPos (randVal % s.nOpen) * 2 + player then true
          else s.board (expandedIndex dim ℓl * 2 + 1)) = false
        rw [if_neg (by rw [← hel]; omega), hfl1]
    · rcases bk.open_good k hk' with ⟨ℓl, hℓl, hel, hfl0, hfl1⟩
      have hvne : s.openPos (randVal % s.nOpen) ≠ s.openPos k :=
        bk.open_inj _ _ hr hk' (fun he2 => hkr he2.symm)
      refine ⟨ℓl, hℓl, ?_, ?_, ?_⟩
      · show (if k = randVal % s.nOpen then s.openPos (s.nOpen - 1)
          else s.openPos k) = expandedIndex dim ℓl
        rw [if_neg hkr]
        exact hel
      · show (if expandedIndex dim ℓl * 2 =
            s.openPos (randVal % s.nOpen) * 2 + player then true
          else s.board (expandedIndex dim ℓl * 2)) = false
        rw [if_neg (by rw [← hel]; omega), hfl0]
      · show (if expandedIndex dim ℓl * 2 + 1 =
            s.openPos (randVal % s.nOpen) * 2 + player then true
          else s.board (expandedIndex dim ℓl * 2 + 1)) = false
        rw [if_neg (by rw [← hel]; omega), hfl1]
  · intro k k' hk hk' hne
    change k < s.nOpen - 1 at hk
    change k' < s.nOpen - 1 at hk'
    show (if k = randVal % s.nOpen then s.openPos (s.nOpen - 1)
        else s.openPos k) ≠
      (if k' = randVal % s.nOpen then s.openPos (s.nOpen - 1)
        else s.openPos k')
    have hlast : s.nOpen - 1 < s.nOpen := by omega
    by_cases hkr : k = randVal % s.nOpen
    · rw [if_pos hkr, if_neg (by omega : ¬ k' = randVal % s.nOpen)]
      exact bk.open_inj _ _ hlast (by omega) (by omega)
    · by_cases hkr' : k' = randVal % s.nOpen
      · rw [if_neg hkr, if_pos hkr']
        exact bk.open_inj _ _ (by omega) hlast (by omega)
      · rw [if_neg hkr, if_neg hkr']
        exact bk.open_inj _ _ (by omega) (by omega) hne

theorem reach_bookkeeping (dim : Nat) (s : HexState) (h : Reach dim s) :
    Bookkeeping dim s := by
  induction h with
  | init => exact bookkeeping_init dim
  | place s player randVal e s' _ hpl hp ih =>
    exact bookkeeping_place dim player randVal e s s' hpl hp ih
  | checkWin s player pos _ ih => exact bookkeeping_winner dim player pos s ih
  | undo s n rm s' _ hu ih => exact bookkeeping_undo dim n s rm s' hu ih

/-- C5 amended: on every reachable state with at least one open cell,
`place_piece_randomly` returns the *padded* (expanded-grid) index of the
cell it occupied — not the logical index — while the value appended to the
move history is the corresponding logical 0-based row-major index `ℓ`,
related to the returned value by the affine sentinel-border map
`expandedIndex`. -/
theorem place_random_returns_padded_index (dim player randVal e : Nat)
    (s s' : HexState) (hre : Reach dim s)
    (h : placePieceRandomly dim player randVal s = some (e, s')) :
    ∃ ℓ, ℓ < dim * dim ∧ e = expandedIndex dim ℓ ∧
      s'.moves = s.moves ++ [ℓ] ∧ s'.board (e * 2 + player) = true := by
  have bk := reach_bookkeeping dim s hre
  by_cases hz : s.nOpen = 0
  · unfold placePieceRandomly at h
    rw [if_pos hz] at h
    exact absurd h (by simp)
  unfold placePieceRandomly at h
  rw [if_neg hz] at h
  dsimp only at h
  injection h with h
  injection h with h1 h2
  subst h2
  subst h1
  have hr : randVal % s.nOpen < s.nOpen :=
    Nat.mod_lt _ (Nat.pos_of_ne_zero hz)
  rcases bk.open_good _ hr with ⟨ℓe, hℓe, he, hf0, hf1⟩
  refine ⟨ℓe, hℓe, he, ?_, ?_⟩
  · show s.moves ++ [(s.openPos (randVal % s.nOpen) / gridW dim - 1) * dim +
      (s.openPos (randVal % s.nOpen) % gridW dim - 1)] = s.moves ++ [ℓe]
    rw [he, logical_of_expandedIndex dim ℓe hℓe]
  · show (if s.openPos (randVal % s.nOpen) * 2 + player =
        s.openPos (randVal % s.nOpen) * 2 + player then true
      else s.board (s.openPos (randVal % s.nOpen) * 2 + player)) = true
    rw [if_pos rfl]

/-- Witness for C5 amended: the 1×1 placement returns padded index 4 =
`expandedIndex 1 0`, appending logical index 0. -/
theorem place_random_returns_padded_index_witness :
    placePieceRandomly 1 0 0 (initState 1) = some (4, exOneMove) ∧
    (∃ ℓ, ℓ < 1 * 1 ∧ 4 = expandedIndex 1 ℓ ∧
      exOneMove.moves = (initState 1).moves ++ [ℓ] ∧
      exOneMove.board (4 * 2 + 0) = true) :=
  ⟨rfl, place_random_returns_padded_index 1 0 0 4 (initState 1) exOneMove
    Reach.init rfl⟩

theorem range_flatMap_range (dim : Nat) : ∀ n : Nat,
    (List.range n).flatMap
      (fun i => (List.range dim).map (fun j => i * dim + j)) =
    List.range (n * dim) := by
  intro n
  induction n with
  | zero => simp
  | succ n ih =>
    rw [List.range_succ, List.flatMap_append, ih]
    have hsing : [n].flatMap
        (fun i => (List.range dim).map (fun j => i * dim + j)) =
        (List.range dim).map (fun j => n * dim + j) :=
      List.flatMap_singleton _ _
    rw [hsing, Nat.succ_mul, List.range_add]

theorem boardToCoord_eq_map (dim : Nat) (s : HexState) :
    boardToCoord dim s = (List.range (dim * dim)).map (cellVal dim s) := by
  unfold boardToCoord
  rw [← range_flatMap_range dim dim, List.map_flatMap]
  apply List.flatMap_congr
  intro i hi
  rw [List.map_map]
  apply List.map_congr_left
  intro j hj
  rw [List.mem_range] at hi hj
  show (if s.board (((i + 1) * gridW dim + j + 1) * 2) = true then (1 : Int)
    else if s.board (((i + 1) * gridW dim + j + 1) * 2 + 1) = true then -1
    else 0) = cellVal dim s (i * dim + j)
  unfold cellVal
  have hE : (i + 1) * gridW dim + j + 1 = expandedIndex dim (i * dim + j) := by
    rw [expandedIndex_rowcol dim i j hj]
    ring
  rw [hE]

theorem countP_mem_range : ∀ (N : Nat) (L : List Nat), L.Nodup →
    (∀ ℓ ∈ L, ℓ < N) →
    (List.range N).countP (fun ℓ => ℓ ∈ L) = L.length := by
  intro N
  induction N with
  | zero =>
    intro L hnd hlt
    cases L with
    | nil => simp
    | cons a t => exact absurd (hlt a (List.mem_cons_self a t)) (by omega)
  | succ N ih =>
    intro L hnd hlt
    rw [List.range_succ, List.countP_append]
    have hsing : List.countP (fun ℓ => decide (ℓ ∈ L)) [N] =
        if N ∈ L then 1 else 0 := by
      simp [List.countP_cons]
    by_cases hN : N ∈ L
    · have hL' : ∀ ℓ ∈ L.erase N, ℓ < N := by
        intro ℓ hℓ
        rcases (List.Nodup.mem_erase_iff hnd).mp hℓ with ⟨hne, hmem⟩
        have := hlt ℓ hmem
        omega
      have hcongr : List.countP (fun ℓ => decide (ℓ ∈ L)) (List.range N) =
          List.countP (fun ℓ => decide (ℓ ∈ L.erase N)) (List.range N) := by
        apply List.countP_congr
        intro x hx
        rw [List.mem_range] at hx
        simp only [decide_eq_true_eq]
        rw [List.Nodup.mem_erase_iff hnd]
        constructor
        · intro hm; exact ⟨by omega, hm⟩
        · intro hm; exact hm.2
      have hlen : (L.erase N).length = L.length - 1 := by
        rw [List.length_erase]
        rw [if_pos hN]
      have hpos : 0 < L.length :=
        List.length_pos.mpr (List.ne_nil_of_mem hN)
      rw [hsing, if_pos hN, hcongr, ih (L.erase N) (hnd.erase N) hL', hlen]
      omega
    · have hL : ∀ ℓ ∈ L, ℓ < N := by
        intro ℓ hℓ
        have h1 := hlt ℓ hℓ
        have h2 : ℓ ≠ N := by
          intro he; subst he; exact hN hℓ
        omega
      rw [hsing, if_neg hN, ih L hnd hL]
      omega

/-- C9: on every reachable state, `board_to_coord` returns a vector of
length N² over the N×N logical board in row-major order, every entry is
+1 (first player, X), −1 (second player, O) or 0 (empty), and the number
of non-zero entries (the +1s plus the −1s) equals the number of moves in
the history. -/
theorem to_cell_vector_spec (dim : Nat) (s : HexState) (hre : Reach dim s) :
    (boardToCoord dim s).length = dim * dim ∧
    (∀ v ∈ boardToCoord dim s, v = 1 ∨ v = -1 ∨ v = 0) ∧
    (∀ i j, i < dim → j < dim →
      (boardToCoord dim s)[i * dim + j]? =
        some (if s.board (((i + 1) * gridW dim + j + 1) * 2) = true then 1
          else if s.board (((i + 1) * gridW dim + j + 1) * 2 + 1) = true
            then -1 else 0)) ∧
    (boardToCoord dim s).countP (fun v => v ≠ 0) = s.moves.length := by
  have bk := reach_bookkeeping dim s hre
  rw [boardToCoord_eq_map]
  refine ⟨by simp, ?_, ?_, ?_⟩
  · intro v hv
    rw [List.mem_map] at hv
    rcases hv with ⟨ℓ, _, hval⟩
    unfold cellVal at hval
    split at hval
    · left; exact hval.symm
    · split at hval
      · right; left; exact hval.symm
      · right; right; exact hval.symm
  · intro i j hi hj
    have hlt : i * dim + j < dim * dim := by
      calc i * dim + j < i * dim + dim := by omega
        _ = (i + 1) * dim := by ring
        _ ≤ dim * dim := Nat.mul_le_mul_right _ (by omega)
    rw [List.getElem?_map, List.getElem?_range hlt]
    simp only [Option.map_some']
    congr 1
    unfold cellVal
    have hE : (i + 1) * gridW dim + j + 1 = expandedIndex dim (i * dim + j) := by
      rw [expandedIndex_rowcol dim i j hj]
      ring
    rw [hE]
  · rw [List.countP_map]
    have hcongr : List.countP ((fun v => decide (v ≠ 0)) ∘ cellVal dim s)
        (List.range (dim * dim)) =
        List.countP (fun ℓ => decide (ℓ ∈ s.moves))
          (List.range (dim * dim)) := by
      apply List.countP_congr
      intro ℓ hℓ
      rw [List.mem_range] at hℓ
      show (decide (cellVal dim s ℓ ≠ 0) = true) ↔
        (decide (ℓ ∈ s.moves) = true)
      simp only [decide_eq_true_eq]
      rw [← bk.occ_moves ℓ hℓ]
      unfold cellVal
      constructor
      · intro hne
        by_cases h0 : s.board (expandedIndex dim ℓ * 2) = true
        · exact Or.inl h0
        · by_cases h1 : s.board (expandedIndex dim ℓ * 2 + 1) = true
          · exact Or.inr h1
          · exfalso
            rw [if_neg h0, if_neg h1] at hne
            exact hne rfl
      · intro hocc
        rcases hocc with h0 | h0
        · rw [if_pos h0]
          decide
        · by_cases hx : s.board (expandedIndex dim ℓ * 2) = true
          · rw [if_pos hx]; decide
          · rw [if_neg hx, if_pos h0]; decide
    rw [hcongr]
    exact countP_mem_range (dim * dim) s.moves bk.nodup bk.moves_lt

/-- `exTwoMoves` is reachable on the 2×2 board. -/
theorem exTwoMoves_reach : Reach 2 exTwoMoves :=
  Reach.place _ 1 0 10 _
    (Reach.place _ 0 0 5 _ Reach.init (by decide) rfl) (by decide) rfl

/-- Witness for C9 at a concrete input: on `exTwoMoves` (two moves played on
the 2×2 board), the projection has length 4 and exactly 2 non-zero
entries. -/
theorem to_cell_vector_spec_witness :
    (boardToCoord 2 exTwoMoves).length = 2 * 2 ∧
    (boardToCoord 2 exTwoMoves).countP (fun v => v ≠ 0) =
      exTwoMoves.moves.length :=
  ⟨(to_cell_vector_spec 2 exTwoMoves exTwoMoves_reach).1,
   (to_cell_vector_spec 2 exTwoMoves exTwoMoves_reach).2.2.2⟩

theorem playable_ge (dim pos : Nat) (h : playable dim pos) :
    gridW dim + 1 ≤ pos := by
  obtain ⟨hr, _, hc, _⟩ := h
  have hW : 0 < gridW dim := by unfold gridW; omega
  have h1 : gridW dim ≤ pos := by
    rw [← Nat.one_le_div_iff hW]
    exact hr
  have h2 := Nat.div_add_mod pos (gridW dim)
  have h3 : gridW dim * 1 ≤ gridW dim * (pos / gridW dim) :=
    Nat.mul_le_mul_left _ hr
  omega

theorem playable_lt (dim pos : Nat) (h : playable dim pos) :
    pos < gridW dim * gridW dim := by
  obtain ⟨_, hr, _, hc⟩ := h
  have h2 := Nat.div_add_mod pos (gridW dim)
  have hmod : pos % gridW dim < gridW dim := Nat.mod_lt _ (by unfold gridW; omega)
  have h3 : gridW dim * (pos / gridW dim) ≤ gridW dim * dim :=
    Nat.mul_le_mul_left _ hr
  have h4 : gridW dim * dim + gridW dim ≤ gridW dim * gridW dim := by
    have : gridW dim * (dim + 1) ≤ gridW dim * gridW dim :=
      Nat.mul_le_mul_left _ (by unfold gridW; omega)
    rw [Nat.mul_add, Nat.mul_one] at this
    exact this
  omega

theorem playable_expandedIndex (dim ℓ : Nat) (h : ℓ < dim * dim) :
    playable dim (expandedIndex dim ℓ) := by
  obtain ⟨hd1, hd2⟩ := expandedIndex_div_mod dim ℓ h
  have hdim : 0 < dim := by
    rcases Nat.eq_zero_or_pos dim with h0 | h0
    · subst h0; simp at h
    · exact h0
  have hne : ℓ / dim < dim := by
    rw [Nat.div_lt_iff_lt_mul hdim]
    omega
  have hmod : ℓ % dim < dim := Nat.mod_lt _ hdim
  refine ⟨?_, ?_, ?_, ?_⟩
  · rw [hd1]; exact Nat.le_add_left 1 _
  · rw [hd1]; exact Nat.succ_le_of_lt hne
  · rw [hd2]; exact Nat.le_add_left 1 _
  · rw [hd2]; exact Nat.succ_le_of_lt hmod

theorem rowcol_decomp (dim a b : Nat) (hb : b < gridW dim) :
    (gridW dim * a + b) / gridW dim = a ∧
    (gridW dim * a + b) % gridW dim = b := by
  have hW : 0 < gridW dim := by unfold gridW; omega
  constructor
  · rw [Nat.mul_add_div hW, Nat.div_eq_of_lt hb]
    omega
  · rw [Nat.mul_add_mod, Nat.mod_eq_of_lt hb]

/-- Row/column description of the six neighbor positions of a playable
cell (Nat subtraction never truncates here since `pos ≥ W+1`). -/
theorem nbr_rowcol (dim x : Nat) (hx : playable dim x) :
    (x + 1 - gridW dim) / gridW dim = x / gridW dim - 1 ∧
    (x + 1 - gridW dim) % gridW dim = x % gridW dim + 1 ∧
    (x - gridW dim) / gridW dim = x / gridW dim - 1 ∧
    (x - gridW dim) % gridW dim = x % gridW dim ∧
    (x - 1) / gridW dim = x / gridW dim ∧
    (x - 1) % gridW dim = x % gridW dim - 1 ∧
    (x + 1) / gridW dim = x / gridW dim ∧
    (x + 1) % gridW dim = x % gridW dim + 1 ∧
    (x + gridW dim) / gridW dim = x / gridW dim + 1 ∧
    (x + gridW dim) % gridW dim = x % gridW dim ∧
    (x + gridW dim - 1) / gridW dim = x / gridW dim + 1 ∧
    (x + gridW dim - 1) % gridW dim = x % gridW dim - 1 := by
  obtain ⟨hr1, hr2, hc1, hc2⟩ := hx
  have hWd : gridW dim = dim + 2 := rfl
  have hdec := Nat.div_add_mod x (gridW dim)
  have hA : gridW dim * (x / gridW dim - 1) + gridW dim =
      gridW dim * (x / gridW dim) := by
    have h1 : x / gridW dim - 1 + 1 = x / gridW dim := by omega
    calc gridW dim * (x / gridW dim - 1) + gridW dim
        = gridW dim * (x / gridW dim - 1 + 1) := by
          rw [Nat.mul_add, Nat.mul_one]
      _ = gridW dim * (x / gridW dim) := by rw [h1]
  have hB : gridW dim * (x / gridW dim + 1) =
      gridW dim * (x / gridW dim) + gridW dim := by
    rw [Nat.mul_add, Nat.mul_one]
  have hcW : x % gridW dim < gridW dim :=
    Nat.mod_lt _ (by omega)
  have hc1W : x % gridW dim + 1 < gridW dim := by omega
  have hcm1W : x % gridW dim - 1 < gridW dim := by omega
  have e1 : x + 1 - gridW dim =
      gridW dim * (x / gridW dim - 1) + (x % gridW dim + 1) := by omega
  have e2 : x - gridW dim =
      gridW dim * (x / gridW dim - 1) + x % gridW dim := by omega
  have e3 : x - 1 = gridW dim * (x / gridW dim) + (x % gridW dim - 1) := by
    omega
  have e4 : x + 1 = gridW dim * (x / gridW dim) + (x % gridW dim + 1) := by
    omega
  have e5 : x + gridW dim =
      gridW dim * (x / gridW dim + 1) + x % gridW dim := by omega
  have e6 : x + gridW dim - 1 =
      gridW dim * (x / gridW dim + 1) + (x % gridW dim - 1) := by omega
  refine ⟨?_, ?_, ?_, ?_, ?_, ?_, ?_, ?_, ?_, ?_, ?_, ?_⟩
  · rw [e1]; exact (rowcol_decomp dim _ _ hc1W).1
  · rw [e1]; exact (rowcol_decomp dim _ _ hc1W).2
  · rw [e2]; exact (rowcol_decomp dim _ _ hcW).1
  · rw [e2]; exact (rowcol_decomp dim _ _ hcW).2
  · rw [e3]; exact (rowcol_decomp dim _ _ hcm1W).1
  · rw [e3]; exact (rowcol_decomp dim _ _ hcm1W).2
  · rw [e4]; exact (rowcol_decomp dim _ _ hc1W).1
  · rw [e4]; exact (rowcol_decomp dim _ _ hc1W).2
  · rw [e5]; exact (rowcol_decomp dim _ _ hcW).1
  · rw [e5]; exact (rowcol_decomp dim _ _ hcW).2
  · rw [e6]; exact (rowcol_decomp dim _ _ hcm1W).1
  · rw [e6]; exact (rowcol_decomp dim _ _ hcm1W).2

theorem adjacent_symm (dim x y : Nat) (hx : gridW dim + 1 ≤ x)
    (h : adjacent dim x y) : adjacent dim y x := by
  unfold adjacent nbrList at h ⊢
  simp only [List.mem_cons, List.not_mem_nil, or_false] at h ⊢
  omega

theorem startConn_occ (dim p : Nat) (b : Nat → Bool) (z : Nat)
    (h : StartConn dim p b z) : b (z * 2 + p) = true := by
  cases h with
  | base _ _ hb => exact hb
  | step _ _ _ _ hb => exact hb

theorem startConn_mono (dim p : Nat) (b b' : Nat → Bool)
    (hle : ∀ i, b i = true → b' i = true) (z : Nat)
    (h : StartConn dim p b z) : StartConn dim p b' z := by
  induction h with
  | base pos hs hb => exact .base pos hs (hle _ hb)
  | step x y _ hadj hb ih => exact .step x y ih hadj (hle _ hb)

theorem startConn_congr (dim p : Nat) (b b' : Nat → Bool)
    (heq : ∀ q, b' (q * 2 + p) = b (q * 2 + p)) (z : Nat)
    (h : StartConn dim p b z) : StartConn dim p b' z := by
  induction h with
  | base pos hs hb => exact .base pos hs (by rw [heq]; exact hb)
  | step x y _ hadj hb ih => exact .step x y ih hadj (by rw [heq]; exact hb)

theorem startConnAvoid_startConn (dim p : Nat) (b : Nat → Bool) (e z : Nat)
    (h : StartConnAvoid dim p b e z) : StartConn dim p b z := by
  induction h with
  | base pos _ hs hb => exact .base pos hs hb
  | step x y _ _ hadj hb ih => exact .step x y ih hadj hb

theorem startConnAvoid_off (dim p : Nat) (b b₁ : Nat → Bool) (e : Nat)
    (hagree : ∀ q, q ≠ e → b₁ (q * 2 + p) = b (q * 2 + p)) (z : Nat)
    (h : StartConnAvoid dim p b₁ e z) : StartConnAvoid dim p b e z := by
  induction h with
  | base pos hne hs hb =>
    exact .base pos hne hs (by rw [← hagree pos hne]; exact hb)
  | step x y _ hne hadj hb ih =>
    exact .step x y ih hne hadj (by rw [← hagree y hne]; exact hb)

theorem startConn_to_avoid (dim p : Nat) (b : Nat → Bool) (e : Nat)
    (hvac : b (e * 2 + p) = false) (z : Nat)
    (h : StartConn dim p b z) : StartConnAvoid dim p b e z := by
  induction h with
  | base pos hs hb =>
    refine .base pos ?_ hs hb
    intro hpe
    rw [hpe, hvac] at hb
    exact absurd hb (by decide)
  | step x y _ hadj hb ih =>
    refine .step x y ih ?_ hadj hb
    intro hye
    rw [hye, hvac] at hb
    exact absurd hb (by decide)

theorem startConn_decompose (dim p : Nat) (b₁ : Nat → Bool) (e z : Nat)
    (h : StartConn dim p b₁ z) :
    StartConnAvoid dim p b₁ e z ∨
    (startCell dim p e ∧ b₁ (e * 2 + p) = true) ∨
    (∃ y, adjacent dim y e ∧ StartConnAvoid dim p b₁ e y) := by
  induction h with
  | base pos hs hb =>
    by_cases hpe : pos = e
    · subst hpe
      exact Or.inr (Or.inl ⟨hs, hb⟩)
    · exact Or.inl (.base pos hpe hs hb)
  | step x y _ hadj hb ih =>
    rcases ih with ha | hm | hn
    · by_cases hye : y = e
      · subst hye
        exact Or.inr (Or.inr ⟨x, hadj, ha⟩)
      · exact Or.inl (.step x y ha hye hadj hb)
    · exact Or.inr (Or.inl hm)
    · exact Or.inr (Or.inr hn)

theorem place_spec (dim player randVal e : Nat) (s s₁ : HexState)
    (bk : Bookkeeping dim s)
    (h : placePieceRandomly dim player randVal s = some (e, s₁)) :
    s₁.board = (fun i => if i = e * 2 + player then true else s.board i) ∧
    s₁.conn = s.conn ∧ playable dim e ∧
    s.board (e * 2) = false ∧ s.board (e * 2 + 1) = false := by
  by_cases hz : s.nOpen = 0
  · unfold placePieceRandomly at h
    rw [if_pos hz] at h
    exact absurd h (by simp)
  unfold placePieceRandomly at h
  rw [if_neg hz] at h
  dsimp only at h
  injection h with h
  injection h with h1 h2
  subst h2
  subst h1
  have hr : randVal % s.nOpen < s.nOpen :=
    Nat.mod_lt _ (Nat.pos_of_ne_zero hz)
  rcases bk.open_good _ hr with ⟨ℓe, hℓe, he, hf0, hf1⟩
  rw [he]
  exact ⟨rfl, rfl, playable_expandedIndex dim ℓe hℓe, hf0, hf1⟩

theorem countP_lt_strict {α : Type _} :
    ∀ (l : List α) (p q : α → Bool),
      (∀ x ∈ l, p x = true → q x = true) →
      ∀ x ∈ l, p x = false → q x = true →
      l.countP p < l.countP q := by
  intro l p q hle
  induction l with
  | nil => intro x hx; simp at hx
  | cons a t ih =>
    intro x hx hpx hqx
    rw [List.countP_cons, List.countP_cons]
    have hmono : ∀ y ∈ t, p y = true → q y = true :=
      fun y hy => hle y (List.mem_cons_of_mem a hy)
    rcases List.mem_cons.mp hx with hxa | hxt
    · subst hxa
      have h1 : List.countP p t ≤ List.countP q t :=
        List.countP_mono_left hmono
      rw [hpx] at *
      simp only [hqx, Bool.false_eq_true, if_false, if_true]
      omega
    · have h1 := ih hmono x hxt hpx hqx
      have h2 : (if p a = true then 1 else 0) ≤
          (if q a = true then 1 else 0) := by
        by_cases hpa : p a = true
        · rw [if_pos hpa, if_pos (hle a (List.mem_cons_self a t) hpa)]
        · rw [if_neg hpa]
          omega
      omega

theorem unmarkedCount_mono (dim p : Nat) (st st' : HexState)
    (hle : ∀ i, st.conn i = true → st'.conn i = true) :
    unmarkedCount dim p st' ≤ unmarkedCount dim p st := by
  apply List.countP_mono_left
  intro q _ hq
  simp only [decide_eq_true_eq] at hq ⊢
  cases hcase : st.conn (q * 2 + p) with
  | false => rfl
  | true => rw [hle _ hcase] at hq; exact absurd hq (by decide)

theorem unmarkedCount_setConn (dim p pos : Nat) (st : HexState)
    (hpos : pos < gridW dim * gridW dim)
    (hun : st.conn (pos * 2 + p) = false) :
    unmarkedCount dim p (setConn p pos st) < unmarkedCount dim p st := by
  apply countP_lt_strict _ _ _ ?_ pos (List.mem_range.mpr hpos) ?_ ?_
  · intro x _ hx
    simp only [decide_eq_true_eq] at hx ⊢
    simp only [setConn] at hx
    split at hx
    · exact absurd hx (by decide)
    · exact hx
  · simp [setConn]
  · simp only [decide_eq_true_eq]
    exact hun

theorem connectLoop_sound (dim p : Nat)
    (rec : Nat → HexState → Bool × HexState)
    (hframe : ∀ nb t, (rec nb t).2.board = t.board)
    (hrec : ∀ nb t, StartConn dim p t.board nb →
      (∀ q, (rec nb t).2.conn (q * 2 + p) = true →
        t.conn (q * 2 + p) = true ∨ StartConn dim p t.board q) ∧
      ((rec nb t).1 = true → refWin dim p t.board)) :
    ∀ (l : List Nat) (s : HexState),
      (∀ nb ∈ l, s.board (nb * 2 + p) = true → StartConn dim p s.board nb) →
      (∀ q, (connectLoop p rec l s).2.conn (q * 2 + p) = true →
        s.conn (q * 2 + p) = true ∨ StartConn dim p s.board q) ∧
      ((connectLoop p rec l s).1 = true → refWin dim p s.board) := by
  intro l
  induction l with
  | nil =>
    intro s _
    exact ⟨fun q hq => Or.inl (by simpa [connectLoop] using hq),
      by simp [connectLoop]⟩
  | cons nb rest ih =>
    intro s hpre
    rw [connectLoop]
    split
    · rename_i hcond
      rcases hr : rec nb s with ⟨b, s'⟩
      have hsound := hrec nb s (hpre nb (List.mem_cons_self nb rest) hcond.1)
      rw [hr] at hsound
      dsimp only at hsound
      have hb2 := hframe nb s
      rw [hr] at hb2
      dsimp only at hb2
      cases b with
      | true =>
        dsimp only
        exact ⟨fun q hq => hsound.1 q hq, fun _ => hsound.2 rfl⟩
      | false =>
        dsimp only
        have hpre' : ∀ m ∈ rest, s'.board (m * 2 + p) = true →
            StartConn dim p s'.board m := by
          rw [hb2]
          exact fun m hm => hpre m (List.mem_cons_of_mem nb hm)
        have hres := ih s' hpre'
        constructor
        · intro q hq
          rcases hres.1 q hq with hq2 | hq2
          · exact hsound.1 q hq2
          · rw [hb2] at hq2
            exact Or.inr hq2
        · intro ht
          have := hres.2 ht
          rwa [hb2] at this
    · rename_i hcond
      exact ih s (fun m hm => hpre m (List.mem_cons_of_mem nb hm))

theorem connectF_sound (dim p : Nat) : ∀ (fuel pos : Nat) (st : HexState),
    StartConn dim p st.board pos →
    (∀ q, (connectF dim p fuel pos st).2.conn (q * 2 + p) = true →
      st.conn (q * 2 + p) = true ∨ StartConn dim p st.board q) ∧
    ((connectF dim p fuel pos st).1 = true → refWin dim p st.board) := by
  intro fuel
  induction fuel with
  | zero =>
    intro pos st _
    exact ⟨fun q hq => Or.inl (by simpa [connectF] using hq),
      by simp [connectF]⟩
  | succ fuel ih =>
    intro pos st hstart
    have hset : ∀ q, (setConn p pos st).conn (q * 2 + p) = true →
        st.conn (q * 2 + p) = true ∨ StartConn dim p st.board q := by
      intro q hq
      simp only [setConn] at hq
      split at hq
      · rename_i hqe
        have : q = pos := by omega
        subst this
        exact Or.inr hstart
      · exact Or.inl hq
    rw [connectF]
    split
    · rename_i hgoal
      exact ⟨hset, fun _ => ⟨pos, hstart, Or.inl hgoal⟩⟩
    · split
      · rename_i hgoal1
        exact ⟨hset, fun _ => ⟨pos, hstart, Or.inr hgoal1⟩⟩
      · have hpre : ∀ nb ∈ nbrList dim pos,
            (setConn p pos st).board (nb * 2 + p) = true →
            StartConn dim p (setConn p pos st).board nb := by
          intro nb hnb hocc
          exact .step pos nb hstart hnb hocc
        have hres := connectLoop_sound dim p (connectF dim p fuel)
          (fun nb t => (connectF_board_eq dim p fuel nb t).1)
          (fun nb t hc => ih nb t hc)
          (nbrList dim pos) (setConn p pos st) hpre
        constructor
        · intro q hq
          rcases hres.1 q hq with hq2 | hq2
          · exact hset q hq2
          · exact Or.inr hq2
        · exact hres.2

theorem connectLoop_no_goal (dim p : Nat)
    (rec : Nat → HexState → Bool × HexState)
    (hrec : ∀ nb t, (rec nb t).1 = false → ∀ q, goalCell dim p q →
      (rec nb t).2.conn (q * 2 + p) = true → t.conn (q * 2 + p) = true) :
    ∀ (l : List Nat) (s : HexState),
      (connectLoop p rec l s).1 = false → ∀ q, goalCell dim p q →
      (connectLoop p rec l s).2.conn (q * 2 + p) = true →
      s.conn (q * 2 + p) = true := by
  intro l
  induction l with
  | nil =>
    intro s _ q _ hq
    simpa [connectLoop] using hq
  | cons nb rest ih =>
    intro s hfalse q hgoal hq
    rw [connectLoop] at hfalse hq
    by_cases hcond : s.board (nb * 2 + p) = true ∧ s.conn (nb * 2 + p) = false
    · rw [if_pos hcond] at hfalse hq
      rcases hr : rec nb s with ⟨b, s'⟩
      rw [hr] at hfalse hq
      cases b with
      | true => exact absurd hfalse (by simp)
      | false =>
        dsimp only at hfalse hq
        have h1 := ih s' hfalse q hgoal hq
        have h2 := hrec nb s
        rw [hr] at h2
        exact h2 rfl q hgoal h1
    · rw [if_neg hcond] at hfalse hq
      exact ih s hfalse q hgoal hq

theorem connectF_no_goal (dim p : Nat) : ∀ (fuel pos : Nat) (st : HexState),
    (connectF dim p fuel pos st).1 = false → ∀ q, goalCell dim p q →
    (connectF dim p fuel pos st).2.conn (q * 2 + p) = true →
    st.conn (q * 2 + p) = true := by
  intro fuel
  induction fuel with
  | zero =>
    intro pos st _ q _ hq
    simpa [connectF] using hq
  | succ fuel ih =>
    intro pos st hfalse q hgoal hq
    rw [connectF] at hfalse hq
    split at hfalse
    · exact absurd hfalse (by simp)
    · split at hfalse
      · exact absurd hfalse (by simp)
      · rename_i hg0 hg1
        rw [if_neg hg0, if_neg hg1] at hq
        have h1 := connectLoop_no_goal dim p (connectF dim p fuel)
          (fun nb t => ih nb t) (nbrList dim pos) (setConn p pos st)
          hfalse q hgoal hq
        simp only [setConn] at h1
        split at h1
        · rename_i hqpos
          exfalso
          have hqp : q = pos := by omega
          subst hqp
          unfold goalCell at hgoal
          rcases hgoal with ⟨hp0, hrow⟩ | ⟨hp1, hcol⟩
          · exact hg0 ⟨hp0, hrow⟩
          · exact hg1 ⟨hp1, hcol⟩
        · exact h1

theorem connectLoop_complete (dim p fuel : Nat)
    (ihrec : ∀ (pos : Nat) (st : HexState),
      unmarkedCount dim p st < fuel →
      pos < gridW dim * gridW dim →
      (∀ q, st.board (q * 2 + p) = true → q < gridW dim * gridW dim) →
      st.conn (pos * 2 + p) = false →
      (connectF dim p fuel pos st).1 = false →
      (connectF dim p fuel pos st).2.conn (pos * 2 + p) = true ∧
      (∀ q, (connectF dim p fuel pos st).2.conn (q * 2 + p) = true →
        st.conn (q * 2 + p) = true ∨
        (∀ m ∈ nbrList dim q, st.board (m * 2 + p) = true →
          (connectF dim p fuel pos st).2.conn (m * 2 + p) = true))) :
    ∀ (l : List Nat) (s : HexState),
      unmarkedCount dim p s < fuel →
      (∀ q, s.board (q * 2 + p) = true → q < gridW dim * gridW dim) →
      (connectLoop p (connectF dim p fuel) l s).1 = false →
      (∀ nb ∈ l, s.board (nb * 2 + p) = true →
        (connectLoop p (connectF dim p fuel) l s).2.conn (nb * 2 + p) =
          true) ∧
      (∀ q,
        (connectLoop p (connectF dim p fuel) l s).2.conn (q * 2 + p) = true →
        s.conn (q * 2 + p) = true ∨
        (∀ m ∈ nbrList dim q, s.board (m * 2 + p) = true →
          (connectLoop p (connectF dim p fuel) l s).2.conn (m * 2 + p) =
            true)) := by
  have hloopmono := connectLoop_conn_mono p (connectF dim p fuel)
    (fun nb t i => connectF_conn_mono dim p fuel nb t i)
  intro l
  induction l with
  | nil =>
    intro s _ _ _
    refine ⟨fun nb hnb => absurd hnb (List.not_mem_nil nb), fun q hq => ?_⟩
    exact Or.inl (by simpa [connectLoop] using hq)
  | cons nb rest ih =>
    intro s hcount hocc hfalse
    rw [connectLoop] at hfalse ⊢
    by_cases hcond : s.board (nb * 2 + p) = true ∧ s.conn (nb * 2 + p) = false
    · rw [if_pos hcond] at hfalse ⊢
      rcases hr : connectF dim p fuel nb s with ⟨b, s'⟩
      rw [hr] at hfalse
      cases b with
      | true => exact absurd hfalse (by simp)
      | false =>
        dsimp only at hfalse ⊢
        have hmono : ∀ i, s.conn i = true → s'.conn i = true := by
          intro i hi
          have := connectF_conn_mono dim p fuel nb s i hi
          rwa [hr] at this
        have hboard : s'.board = s.board := by
          have := (connectF_board_eq dim p fuel nb s).1
          rwa [hr] at this
        have hfst : (connectF dim p fuel nb s).1 = false := by rw [hr]
        have hib := ihrec nb s hcount (hocc nb hcond.1) hocc hcond.2 hfst
        rw [hr] at hib
        dsimp only at hib
        have hcount' : unmarkedCount dim p s' < fuel :=
          Nat.lt_of_le_of_lt (unmarkedCount_mono dim p s s' hmono) hcount
        have hocc' : ∀ q, s'.board (q * 2 + p) = true →
            q < gridW dim * gridW dim := by
          rw [hboard]; exact hocc
        have hrest := ih s' hcount' hocc' hfalse
        constructor
        · intro m hm hoccm
          rcases List.mem_cons.mp hm with hm | hm
          · subst hm
            exact hloopmono rest s' _ hib.1
          · rw [← hboard] at hoccm
            exact hrest.1 m hm hoccm
        · intro q hq
          rcases hrest.2 q hq with hq2 | hq2
          · rcases hib.2 q hq2 with hq3 | hq3
            · exact Or.inl hq3
            · refine Or.inr (fun m hm hoccm => ?_)
              exact hloopmono rest s' _ (hq3 m hm hoccm)
          · refine Or.inr (fun m hm hoccm => ?_)
            rw [← hboard] at hoccm
            exact hq2 m hm hoccm
    · rw [if_neg hcond] at hfalse ⊢
      have hrest := ih s hcount hocc hfalse
      constructor
      · intro m hm hoccm
        rcases List.mem_cons.mp hm with hm | hm
        · subst hm
          have hmarked : s.conn (m * 2 + p) = true := by
            by_contra hun
            exact hcond ⟨hoccm, by
              cases hcase : s.conn (m * 2 + p) with
              | false => rfl
              | true => exact absurd hcase hun⟩
          exact hloopmono rest s _ hmarked
        · exact hrest.1 m hm hoccm
      · exact hrest.2

theorem connectF_complete (dim p : Nat) : ∀ (fuel pos : Nat) (st : HexState),
    unmarkedCount dim p st < fuel →
    pos < gridW dim * gridW dim →
    (∀ q, st.board (q * 2 + p) = true → q < gridW dim * gridW dim) →
    st.conn (pos * 2 + p) = false →
    (connectF dim p fuel pos st).1 = false →
    (connectF dim p fuel pos st).2.conn (pos * 2 + p) = true ∧
    (∀ q, (connectF dim p fuel pos st).2.conn (q * 2 + p) = true →
      st.conn (q * 2 + p) = true ∨
      (∀ m ∈ nbrList dim q, st.board (m * 2 + p) = true →
        (connectF dim p fuel pos st).2.conn (m * 2 + p) = true)) := by
  intro fuel
  induction fuel with
  | zero =>
    intro pos st hcount _ _ _ _
    exact absurd hcount (by omega)
  | succ fuel ih =>
    intro pos st hcount hpos hocc hun hfalse
    rw [connectF] at hfalse ⊢
    split at hfalse
    · exact absurd hfalse (by simp)
    · split at hfalse
      · exact absurd hfalse (by simp)
      · rename_i hg0 hg1
        rw [if_neg hg0, if_neg hg1]
        have hcount₁ : unmarkedCount dim p (setConn p pos st) < fuel := by
          have := unmarkedCount_setConn dim p pos st hpos hun
          omega
        have hocc₁ : ∀ q, (setConn p pos st).board (q * 2 + p) = true →
            q < gridW dim * gridW dim := hocc
        have hloop := connectLoop_complete dim p fuel
          (fun pos' st' h1 h2 h3 h4 h5 => ih pos' st' h1 h2 h3 h4 h5)
          (nbrList dim pos) (setConn p pos st) hcount₁ hocc₁ hfalse
        have hposmark : (connectLoop p (connectF dim p fuel)
            (nbrList dim pos) (setConn p pos st)).2.conn (pos * 2 + p) =
            true := by
          apply connectLoop_conn_mono p (connectF dim p fuel)
            (fun nb t i => connectF_conn_mono dim p fuel nb t i)
          simp [setConn]
        refine ⟨hposmark, ?_⟩
        intro q hq
        rcases hloop.2 q hq with hq2 | hq2
        · simp only [setConn] at hq2
          split at hq2
          · rename_i hqpos
            have hqp : q = pos := by omega
            subst hqp
            exact Or.inr (fun m hm hoccm => hloop.1 m hm hoccm)
          · exact Or.inl hq2
        · exact Or.inr hq2

theorem initState_conn (dim pos p : Nat) (hp : p < 2) :
    (initState dim).conn (pos * 2 + p) = true ↔ borderSeed dim p pos := by
  have h2 : (pos * 2 + p) % 2 = p := by omega
  have h1 : (pos * 2 + p) / 2 = pos := by omega
  show (if pos * 2 + p < gridW dim * gridW dim * 2 then
      if (pos * 2 + p) % 2 = 0 then
        decide (((pos * 2 + p) / 2) / gridW dim = 0)
      else decide (((pos * 2 + p) / 2) % gridW dim = 0)
    else false) = true ↔ borderSeed dim p pos
  rw [h1, h2]
  unfold borderSeed
  by_cases hin : pos * 2 + p < gridW dim * gridW dim * 2
  · rw [if_pos hin]
    have hinpos : pos < gridW dim * gridW dim := by omega
    rcases (by omega : p = 0 ∨ p = 1) with hp0 | hp1
    · subst hp0
      rw [if_pos rfl]
      simp only [decide_eq_true_eq]
      constructor
      · intro h; exact ⟨hinpos, Or.inl ⟨by trivial, h⟩⟩
      · intro h
        rcases h.2 with ⟨_, hrow⟩ | ⟨habs, _⟩
        · exact hrow
        · exact absurd habs (by decide)
    · subst hp1
      rw [if_neg (by decide)]
      simp only [decide_eq_true_eq]
      constructor
      · intro h; exact ⟨hinpos, Or.inr ⟨by trivial, h⟩⟩
      · intro h
        rcases h.2 with ⟨habs, _⟩ | ⟨_, hcol⟩
        · exact absurd habs (by decide)
        · exact hcol
  · rw [if_neg hin]
    constructor
    · intro h; exact absurd h (by decide)
    · intro h
      exfalso
      have := h.1
      omega

theorem marksInv_init (dim : Nat) : MarksInv dim (initState dim) := by
  constructor
  · intro pos p _ h
    simp [initState] at h
  · intro p hp pos hpos
    rw [initState_conn dim pos p hp]
    constructor
    · intro h
      exfalso
      obtain ⟨hlt, hcase⟩ := h
      obtain ⟨h1, _, h3, _⟩ := hpos
      rcases hcase with ⟨_, hrow⟩ | ⟨_, hcol⟩
      · omega
      · omega
    · intro h
      have := startConn_occ dim p _ pos h
      simp [initState] at this
  · intro p hp pos _
    exact initState_conn dim pos p hp
  · intro p _ hwin
    rcases hwin with ⟨pos, hconn, _⟩
    have := startConn_occ dim p _ pos hconn
    simp [initState] at this

theorem refWin_congr (dim p : Nat) (b b' : Nat → Bool)
    (heq : ∀ q, b' (q * 2 + p) = b (q * 2 + p)) :
    refWin dim p b' ↔ refWin dim p b := by
  constructor
  · rintro ⟨pos, hc, hg⟩
    exact ⟨pos, startConn_congr dim p b' b (fun q => (heq q).symm) pos hc, hg⟩
  · rintro ⟨pos, hc, hg⟩
    exact ⟨pos, startConn_congr dim p b b' heq pos hc, hg⟩

theorem board_update_other (player e : Nat) (s s₁ : HexState)
    (hb₁ : s₁.board =
      fun i => if i = e * 2 + player then true else s.board i) :
    ∀ p', p' < 2 → player < 2 → p' ≠ player → ∀ q,
      s₁.board (q * 2 + p') = s.board (q * 2 + p') := by
  intro p' h2 hpl hne q
  rw [hb₁]
  dsimp only
  rw [if_neg (by omega)]

theorem board_update_off (player e : Nat) (s s₁ : HexState)
    (hb₁ : s₁.board =
      fun i => if i = e * 2 + player then true else s.board i) :
    ∀ q, q ≠ e → s₁.board (q * 2 + player) = s.board (q * 2 + player) := by
  intro q hne
  rw [hb₁]
  dsimp only
  rw [if_neg (by omega)]

theorem winner_case_noneighbor (dim player e : Nat) (s s₁ : HexState)
    (hp : player < 2) (inv : MarksInv dim s)
    (hb₁ : s₁.board =
      fun i => if i = e * 2 + player then true else s.board i)
    (hc₁ : s₁.conn = s.conn) (hplay : playable dim e)
    (hf0 : s.board (e * 2) = false) (hf1 : s.board (e * 2 + 1) = false)
    (hno : ∀ nb ∈ nbrList dim e, s₁.conn (nb * 2 + player) = false) :
    (¬ refWin dim player s₁.board) ∧ MarksInv dim s₁ := by
  have hfe : s.board (e * 2 + player) = false := by
    rcases (by omega : player = 0 ∨ player = 1) with h0 | h0
    · subst h0; exact hf0
    · subst h0; exact hf1
  have hmono_b : ∀ i, s.board i = true → s₁.board i = true := by
    intro i hi
    rw [hb₁]
    dsimp only
    split
    · rfl
    · exact hi
  have hocc₁ : ∀ pos p', p' < 2 → s₁.board (pos * 2 + p') = true →
      playable dim pos := by
    intro pos p' h2 hocc
    rw [hb₁] at hocc
    dsimp only at hocc
    by_cases hie : pos * 2 + p' = e * 2 + player
    · have : pos = e := by omega
      subst this
      exact hplay
    · rw [if_neg hie] at hocc
      exact inv.occ_play pos p' h2 hocc
  have hrc := nbr_rowcol dim e hplay
  -- KA1: the new stone is not a start-edge cell, else a pre-marked border
  -- neighbor would exist.
  have hKA1 : ¬ startCell dim player e := by
    rintro (⟨hp0, hrow⟩ | ⟨hp1, hcol⟩)
    · have hmem : e - gridW dim ∈ nbrList dim e := by
        unfold nbrList
        simp
      have hrow0 : (e - gridW dim) / gridW dim = 0 := by
        rw [hrc.2.2.1, hrow]
      have hnp : ¬ playable dim (e - gridW dim) := by
        rintro ⟨h1, _, _, _⟩
        omega
      have hbs : borderSeed dim player (e - gridW dim) := by
        refine ⟨?_, Or.inl ⟨hp0, hrow0⟩⟩
        have := playable_lt dim e hplay
        omega
      have hmark := (inv.border player hp _ hnp).mpr hbs
      rw [← hc₁] at hmark
      rw [hno _ hmem] at hmark
      exact absurd hmark (by decide)
    · have hmem : e - 1 ∈ nbrList dim e := by
        unfold nbrList
        simp
      have hcol0 : (e - 1) % gridW dim = 0 := by
        rw [hrc.2.2.2.2.2.1, hcol]
      have hnp : ¬ playable dim (e - 1) := by
        rintro ⟨_, _, h3, _⟩
        omega
      have hbs : borderSeed dim player (e - 1) := by
        refine ⟨?_, Or.inr ⟨hp1, hcol0⟩⟩
        have := playable_lt dim e hplay
        omega
      have hmark := (inv.border player hp _ hnp).mpr hbs
      rw [← hc₁] at hmark
      rw [hno _ hmem] at hmark
      exact absurd hmark (by decide)
  -- KA2: no avoid-chain can end next to the new stone.
  have hKA2 : ∀ y, adjacent dim y e →
      StartConnAvoid dim player s₁.board e y → False := by
    intro y hadj havoid
    have hold : StartConn dim player s.board y :=
      startConnAvoid_startConn dim player s.board e y
        (startConnAvoid_off dim player s.board s₁.board e
          (board_update_off player e s s₁ hb₁) y havoid)
    have hoccy : s.board (y * 2 + player) = true :=
      startConn_occ dim player s.board y hold
    have hplayy : playable dim y := inv.occ_play y player hp hoccy
    have hmark := (inv.marks player hp y hplayy).mpr hold
    have hsymm : adjacent dim e y :=
      adjacent_symm dim y e (playable_ge dim y hplayy) hadj
    have hnm := hno y hsymm
    rw [hc₁] at hnm
    rw [hnm] at hmark
    exact absurd hmark (by decide)
  -- KA3: reference connectivity is unchanged by the isolated new stone.
  have hKA3 : ∀ z, StartConn dim player s₁.board z →
      StartConn dim player s.board z := by
    intro z hz
    rcases startConn_decompose dim player s₁.board e z hz with ha | hm | hn
    · exact startConnAvoid_startConn dim player s.board e z
        (startConnAvoid_off dim player s.board s₁.board e
          (board_update_off player e s s₁ hb₁) z ha)
    · exact absurd hm.1 hKA1
    · rcases hn with ⟨y, hadj, havoid⟩
      exact absurd havoid (fun hv => hKA2 y hadj hv)
  have hSC_other : ∀ p', p' < 2 → p' ≠ player → ∀ z,
      StartConn dim p' s₁.board z ↔ StartConn dim p' s.board z := by
    intro p' h2 hne z
    constructor
    · exact startConn_congr dim p' s₁.board s.board
        (fun q => (board_update_other player e s s₁ hb₁ p' h2 hp hne q).symm) z
    · exact startConn_congr dim p' s.board s₁.board
        (board_update_other player e s s₁ hb₁ p' h2 hp hne) z
  have hnoWin₁ : ∀ p', p' < 2 → ¬ refWin dim p' s₁.board := by
    intro p' h2 hwin
    rcases hwin with ⟨g, hg, hgoal⟩
    by_cases hpe : p' = player
    · subst hpe
      exact inv.noWin p' h2 ⟨g, hKA3 g hg, hgoal⟩
    · exact inv.noWin p' h2 ⟨g, (hSC_other p' h2 hpe g).mp hg, hgoal⟩
  refine ⟨hnoWin₁ player hp, ?_⟩
  constructor
  · exact hocc₁
  · intro p' h2 pos hpos
    rw [hc₁]
    by_cases hpe : p' = player
    · subst hpe
      rw [inv.marks p' h2 pos hpos]
      constructor
      · intro h
        exact startConn_mono dim p' s.board s₁.board hmono_b pos h
      · exact hKA3 pos
    · rw [inv.marks p' h2 pos hpos]
      exact (hSC_other p' h2 hpe pos).symm
  · intro p' h2 pos hpos
    rw [hc₁]
    exact inv.border p' h2 pos hpos
  · exact hnoWin₁

theorem winner_case_connect (dim player e : Nat) (s s₁ : HexState)
    (hp : player < 2) (inv : MarksInv dim s)
    (hb₁ : s₁.board =
      fun i => if i = e * 2 + player then true else s.board i)
    (hc₁ : s₁.conn = s.conn) (hplay : playable dim e)
    (hf0 : s.board (e * 2) = false) (hf1 : s.board (e * 2 + 1) = false)
    (hstart : StartConn dim player s₁.board e) :
    ((connectF dim player (gridW dim * gridW dim + 1) e s₁).1 = true ↔
      refWin dim player s₁.board) ∧
    ((connectF dim player (gridW dim * gridW dim + 1) e s₁).1 = false →
      MarksInv dim (connectF dim player (gridW dim * gridW dim + 1) e s₁).2) := by
  have hfe : s.board (e * 2 + player) = false := by
    rcases (by omega : player = 0 ∨ player = 1) with h0 | h0
    · subst h0; exact hf0
    · subst h0; exact hf1
  have hmono_b : ∀ i, s.board i = true → s₁.board i = true := by
    intro i hi
    rw [hb₁]
    dsimp only
    split
    · rfl
    · exact hi
  have hocc₁ : ∀ pos p', p' < 2 → s₁.board (pos * 2 + p') = true →
      playable dim pos := by
    intro pos p' h2 hocc
    rw [hb₁] at hocc
    dsimp only at hocc
    by_cases hie : pos * 2 + p' = e * 2 + player
    · have : pos = e := by omega
      subst this
      exact hplay
    · rw [if_neg hie] at hocc
      exact inv.occ_play pos p' h2 hocc
  have hSC_other : ∀ p', p' < 2 → p' ≠ player → ∀ z,
      StartConn dim p' s₁.board z ↔ StartConn dim p' s.board z := by
    intro p' h2 hne z
    constructor
    · exact startConn_congr dim p' s₁.board s.board
        (fun q => (board_update_other player e s s₁ hb₁ p' h2 hp hne q).symm) z
    · exact startConn_congr dim p' s.board s₁.board
        (board_update_other player e s s₁ hb₁ p' h2 hp hne) z
  have hs1_to_old : ∀ q, playable dim q → s₁.conn (q * 2 + player) = true →
      StartConn dim player s.board q := by
    intro q hq hmark
    rw [hc₁] at hmark
    exact (inv.marks player hp q hq).mp hmark
  have hnoSCe : ¬ StartConn dim player s.board e := by
    intro hsc
    have h := startConn_occ dim player s.board e hsc
    rw [hfe] at h
    exact absurd h (by decide)
  have hKB0 : s₁.conn (e * 2 + player) = false := by
    cases hcase : s₁.conn (e * 2 + player) with
    | false => rfl
    | true =>
      exfalso
      rw [hc₁] at hcase
      exact hnoSCe ((inv.marks player hp e hplay).mp hcase)
  have hcount : unmarkedCount dim player s₁ < gridW dim * gridW dim + 1 := by
    have h1 : unmarkedCount dim player s₁ ≤
        (List.range (gridW dim * gridW dim)).length :=
      List.countP_le_length _
    rw [List.length_range] at h1
    omega
  have hE : e < gridW dim * gridW dim := playable_lt dim e hplay
  have hocc3 : ∀ q, s₁.board (q * 2 + player) = true →
      q < gridW dim * gridW dim := by
    intro q hq
    exact playable_lt dim q (hocc₁ q player hp hq)
  have hboardF := (connectF_board_eq dim player (gridW dim * gridW dim + 1)
    e s₁).1
  have hfmono := connectF_conn_mono dim player (gridW dim * gridW dim + 1)
    e s₁
  have hsound := connectF_sound dim player (gridW dim * gridW dim + 1)
    e s₁ hstart
  have hiff : (connectF dim player (gridW dim * gridW dim + 1) e s₁).1 =
      true ↔ refWin dim player s₁.board := by
    constructor
    · exact hsound.2
    · intro hwin
      cases hfst : (connectF dim player (gridW dim * gridW dim + 1)
          e s₁).1 with
      | true => rfl
      | false =>
        exfalso
        have hcomp := connectF_complete dim player
          (gridW dim * gridW dim + 1) e s₁ hcount hE hocc3 hKB0 hfst
        have hsup : ∀ z, StartConn dim player s₁.board z →
            (connectF dim player (gridW dim * gridW dim + 1)
              e s₁).2.conn (z * 2 + player) = true := by
          intro z hz
          induction hz with
          | base pos hs hb =>
            by_cases hpe : pos = e
            · subst hpe; exact hcomp.1
            · rw [board_update_off player e s s₁ hb₁ pos hpe] at hb
              have hsc : StartConn dim player s.board pos := .base pos hs hb
              have hplp : playable dim pos := inv.occ_play pos player hp hb
              have hmk := (inv.marks player hp pos hplp).mpr hsc
              rw [← hc₁] at hmk
              exact hfmono _ hmk
          | step x y hx hadj hb ih =>
            rcases hcomp.2 x ih with hx2 | hx2
            · have hplx : playable dim x :=
                hocc₁ x player hp (startConn_occ dim player s₁.board x hx)
              have hscx : StartConn dim player s.board x :=
                hs1_to_old x hplx hx2
              by_cases hye : y = e
              · subst hye; exact hcomp.1
              · rw [board_update_off player e s s₁ hb₁ y hye] at hb
                have hscy : StartConn dim player s.board y := .step x y hscx hadj hb
                have hply : playable dim y := inv.occ_play y player hp hb
                have hmk := (inv.marks player hp y hply).mpr hscy
                rw [← hc₁] at hmk
                exact hfmono _ hmk
            · exact hx2 y hadj hb
        rcases hwin with ⟨g, hg, hgoal⟩
        have hgm := hsup g hg
        have hgold := connectF_no_goal dim player
          (gridW dim * gridW dim + 1) e s₁ hfst g hgoal hgm
        have hplg : playable dim g :=
          hocc₁ g player hp (startConn_occ dim player s₁.board g hg)
        exact inv.noWin player hp
          ⟨g, hs1_to_old g hplg hgold, hgoal⟩
  refine ⟨hiff, ?_⟩
  intro hfst
  have hcomp := connectF_complete dim player
    (gridW dim * gridW dim + 1) e s₁ hcount hE hocc3 hKB0 hfst
  have hsup : ∀ z, StartConn dim player s₁.board z →
      (connectF dim player (gridW dim * gridW dim + 1)
        e s₁).2.conn (z * 2 + player) = true := by
    intro z hz
    induction hz with
    | base pos hs hb =>
      by_cases hpe : pos = e
      · subst hpe; exact hcomp.1
      · rw [board_update_off player e s s₁ hb₁ pos hpe] at hb
        have hsc : StartConn dim player s.board pos := .base pos hs hb
        have hplp : playable dim pos := inv.occ_play pos player hp hb
        have hmk := (inv.marks player hp pos hplp).mpr hsc
        rw [← hc₁] at hmk
        exact hfmono _ hmk
    | step x y hx hadj hb ih =>
      rcases hcomp.2 x ih with hx2 | hx2
      · have hplx : playable dim x :=
          hocc₁ x player hp (startConn_occ dim player s₁.board x hx)
        have hscx : StartConn dim player s.board x :=
          hs1_to_old x hplx hx2
        by_cases hye : y = e
        · subst hye; exact hcomp.1
        · rw [board_update_off player e s s₁ hb₁ y hye] at hb
          have hscy : StartConn dim player s.board y := .step x y hscx hadj hb
          have hply : playable dim y := inv.occ_play y player hp hb
          have hmk := (inv.marks player hp y hply).mpr hscy
          rw [← hc₁] at hmk
          exact hfmono _ hmk
      · exact hx2 y hadj hb
  have hother_conn : ∀ p', p' < 2 → p' ≠ player → ∀ pos,
      (connectF dim player (gridW dim * gridW dim + 1)
        e s₁).2.conn (pos * 2 + p') = s₁.conn (pos * 2 + p') := by
    intro p' h2 hne pos
    cases hcase : (connectF dim player (gridW dim * gridW dim + 1)
        e s₁).2.conn (pos * 2 + p') with
    | true =>
      rcases connectF_conn_new dim player (gridW dim * gridW dim + 1)
          e s₁ (pos * 2 + p') hcase with h | h
      · exact h.symm
      · rcases h with ⟨q', hq'⟩
        exact absurd hq' (by omega)
    | false =>
      cases hcase2 : s₁.conn (pos * 2 + p') with
      | false => rfl
      | true =>
        have := hfmono _ hcase2
        rw [hcase] at this
        exact absurd this (by decide)
  constructor
  · intro pos p' h2 hocc
    rw [hboardF] at hocc
    exact hocc₁ pos p' h2 hocc
  · intro p' h2 pos hpos
    rw [hboardF]
    by_cases hpe : p' = player
    · subst hpe
      constructor
      · intro hmk
        rcases hsound.1 pos hmk with h | h
        · exact startConn_mono dim p' s.board s₁.board hmono_b pos
            (hs1_to_old pos hpos h)
        · exact h
      · exact hsup pos
    · rw [hother_conn p' h2 hpe pos, hc₁,
        inv.marks p' h2 pos hpos]
      exact (hSC_other p' h2 hpe pos).symm
  · intro p' h2 pos hpos
    by_cases hpe : p' = player
    · subst hpe
      constructor
      · intro hmk
        rcases hsound.1 pos hmk with h | h
        · rw [hc₁] at h
          exact (inv.border p' h2 pos hpos).mp h
        · exfalso
          exact hpos (hocc₁ pos p' h2
            (startConn_occ dim p' s₁.board pos h))
      · intro hbs
        have := (inv.border p' h2 pos hpos).mpr hbs
        rw [← hc₁] at this
        exact hfmono _ this
    · rw [hother_conn p' h2 hpe pos, hc₁]
      exact inv.border p' h2 pos hpos
  · intro p' h2 hwin
    rw [hboardF] at hwin
    by_cases hpe : p' = player
    · subst hpe
      have := hiff.mpr hwin
      rw [hfst] at this
      exact absurd this (by decide)
    · exact inv.noWin p' h2 ((refWin_congr dim p' s.board s₁.board
        (board_update_other player e s s₁ hb₁ p' h2 hp hpe)).mp hwin)

theorem marked_neighbor_start (dim player e : Nat) (s s₁ : HexState)
    (hp : player < 2) (inv : MarksInv dim s)
    (hb₁ : s₁.board =
      fun i => if i = e * 2 + player then true else s.board i)
    (hc₁ : s₁.conn = s.conn) (hplay : playable dim e)
    (nb : Nat) (hmem : nb ∈ nbrList dim e)
    (hmark : s₁.conn (nb * 2 + player) = true) :
    StartConn dim player s₁.board e := by
  have hself : s₁.board (e * 2 + player) = true := by
    rw [hb₁]
    dsimp only
    rw [if_pos rfl]
  have hmono_b : ∀ i, s.board i = true → s₁.board i = true := by
    intro i hi
    rw [hb₁]
    dsimp only
    split
    · rfl
    · exact hi
  have hm2 : s.conn (nb * 2 + player) = true := by
    rw [← hc₁]
    exact hmark
  by_cases hpb : playable dim nb
  · have hsc := (inv.marks player hp nb hpb).mp hm2
    have hsc₁ : StartConn dim player s₁.board nb :=
      startConn_mono dim player s.board s₁.board hmono_b nb hsc
    have hadj : adjacent dim nb e :=
      adjacent_symm dim e nb (playable_ge dim e hplay) hmem
    exact .step nb e hsc₁ hadj hself
  · have hbs := (inv.border player hp nb hpb).mp hm2
    obtain ⟨hlt, hcase⟩ := hbs
    obtain ⟨h01, h02, h03, h04, h05, h06, h07, h08, h09, h10, h11, h12⟩ :=
      nbr_rowcol dim e hplay
    obtain ⟨he1, he2, he3, he4⟩ := hplay
    unfold nbrList at hmem
    simp only [List.mem_cons, List.not_mem_nil, or_false] at hmem
    rcases hcase with ⟨hp0, hrow⟩ | ⟨hp1, hcol⟩
    · have hre : e / gridW dim = 1 := by
        rcases hmem with h | h | h | h | h | h <;> subst h
        · rw [h01] at hrow; omega
        · rw [h03] at hrow; omega
        · rw [h05] at hrow; omega
        · rw [h07] at hrow; omega
        · rw [h09] at hrow; omega
        · rw [h11] at hrow; omega
      exact .base e (Or.inl ⟨hp0, hre⟩) hself
    · have hce : e % gridW dim = 1 := by
        rcases hmem with h | h | h | h | h | h <;> subst h
        · rw [h02] at hcol; omega
        · rw [h04] at hcol; omega
        · rw [h06] at hcol; omega
        · rw [h08] at hcol; omega
        · rw [h10] at hcol; omega
        · rw [h12] at hcol; omega
      exact .base e (Or.inr ⟨hp1, hce⟩) hself

theorem step_preserves (dim player randVal e : Nat) (s s₁ : HexState)
    (hp : player < 2) (inv : MarksInv dim s) (bk : Bookkeeping dim s)
    (hpl : placePieceRandomly dim player randVal s = some (e, s₁)) :
    ((winner dim player e s₁).1 = true ↔ refWin dim player s₁.board) ∧
    ((winner dim player e s₁).1 = false →
      MarksInv dim (winner dim player e s₁).2) := by
  obtain ⟨hb₁, hc₁, hplay, hf0, hf1⟩ :=
    place_spec dim player randVal e s s₁ bk hpl
  unfold winner
  split
  · rename_i hany
    rw [List.any_eq_true] at hany
    rcases hany with ⟨nb, hmem, hmark⟩
    have hmark2 : s₁.conn (nb * 2 + player) = true := by
      simpa using hmark
    have hstart := marked_neighbor_start dim player e s s₁ hp inv hb₁ hc₁
      hplay nb hmem hmark2
    exact winner_case_connect dim player e s s₁ hp inv hb₁ hc₁ hplay
      hf0 hf1 hstart
  · rename_i hany
    have hno : ∀ nb ∈ nbrList dim e, s₁.conn (nb * 2 + player) = false := by
      intro nb hnb
      cases hcase : s₁.conn (nb * 2 + player) with
      | false => rfl
      | true =>
        exfalso
        exact hany (List.any_eq_true.mpr ⟨nb, hnb, by simpa using hcase⟩)
    have hcA := winner_case_noneighbor dim player e s s₁ hp inv hb₁ hc₁
      hplay hf0 hf1 hno
    refine ⟨⟨fun h => absurd h (by simp), fun h => absurd h hcA.1⟩,
      fun _ => hcA.2⟩

theorem gameReach_reach (dim : Nat) (s : HexState) (h : GameReach dim s) :
    Reach dim s := by
  induction h with
  | init => exact .init
  | step s player randVal e s₁ s₂ _ hp hpl hw ih =>
    have h1 : Reach dim s₁ := .place s player randVal e s₁ ih hp hpl
    have h2 : Reach dim (winner dim player e s₁).2 := .checkWin s₁ player e h1
    rw [hw] at h2
    exact h2

theorem gameReach_marksInv (dim : Nat) (s : HexState) (h : GameReach dim s) :
    MarksInv dim s := by
  induction h with
  | init => exact marksInv_init dim
  | step s player randVal e s₁ s₂ hg hp hpl hw ih =>
    have bk := reach_bookkeeping dim s (gameReach_reach dim s hg)
    have hstep := step_preserves dim player randVal e s s₁ hp ih bk hpl
    have hfst : (winner dim player e s₁).1 = false := by rw [hw]
    have h2 := hstep.2 hfst
    rw [hw] at h2
    exact h2

/-- C1: on every reachable live-game state, for the player and padded
position of the stone just placed, `winner` (the incremental `check_win`)
returns true exactly when the placement completes a chain of the player's
stones connecting the player's start edge to their goal edge — the
reference predicate `refWin`, a fresh full-board recomputation of
connectivity from occupancy alone; in particular, when no neighbor of the
position carries a true connectivity mark for the player, it returns false
without flood-filling, leaving the state untouched. -/
theorem check_win_agrees_with_reference (dim player randVal e : Nat)
    (s s₁ : HexState) (hg : GameReach dim s) (hp : player < 2)
    (hpl : placePieceRandomly dim player randVal s = some (e, s₁)) :
    ((winner dim player e s₁).1 = true ↔ refWin dim player s₁.board) ∧
    ((∀ nb ∈ nbrList dim e, s₁.conn (nb * 2 + player) = false) →
      winner dim player e s₁ = (false, s₁)) :=
  ⟨(step_preserves dim player randVal e s s₁ hp
      (gameReach_marksInv dim s hg)
      (reach_bookkeeping dim s (gameReach_reach dim s hg)) hpl).1,
   (winner_frame dim player e s₁).2.2.2.2.2.2⟩

/-- Witness for C1 at a concrete input: on the 1×1 board the first
placement (player 0 at padded cell 4) makes `winner` return true, matching
the reference connectivity predicate. -/
theorem check_win_agrees_with_reference_witness :
    placePieceRandomly 1 0 0 (initState 1) = some (4, exOneMove) ∧
    ((winner 1 0 4 exOneMove).1 = true ↔ refWin 1 0 exOneMove.board) ∧
    (winner 1 0 4 exOneMove).1 = true :=
  ⟨rfl,
   (check_win_agrees_with_reference 1 0 0 4 (initState 1) exOneMove
     GameReach.init (by decide) rfl).1,
   rfl⟩

/-- Witness for C2 at a concrete input: after the single placement on the
1×1 board the open count is zero and the failure condition is exercised. -/
theorem place_random_fails_iff_board_exhausted_witness :
    (placePieceRandomly 1 0 0 exOneMove = none ↔ exOneMove.nOpen = 0) ∧
    exOneMove.nOpen = 0 ∧ placePieceRandomly 1 0 0 exOneMove = none :=
  ⟨place_random_fails_iff_board_exhausted 1 0 0 exOneMove, rfl, rfl⟩

/-- Witness for C3 at a concrete input: undoing 2 moves with only 1 move of
history fails, and undoing 1 succeeds. -/
theorem undo_fails_iff_insufficient_history_witness :
    (removeLastNMoves 1 2 exOneMove = none ↔ exOneMove.moves.length < 2) ∧
    removeLastNMoves 1 2 exOneMove = none ∧
    (removeLastNMoves 1 1 exOneMove).isSome = true :=
  ⟨undo_fails_iff_insufficient_history 1 2 exOneMove, rfl, rfl⟩
